import Mathlib

/-!
Verification development for the zipoxide library (src/zip_reader.rs,
src/zip_writer.rs).

The embedding models:
- filesystem paths as lists of byte-list components (Unix semantics:
  components separated by byte 47, an absolute path starts with 47);
- the filesystem as an explicit association of paths to file data plus a
  list of existing directories;
- a ZIP archive abstractly as its sequence of entries (name, payload,
  optional ZipCrypto credential), since the container format itself is an
  external codec per the specification;
- the parallel fan-out of `rayon` in `extract_zip` and
  `read_zip_contents_into_buffer` as an explicit worker schedule (a list of
  entry ordinals in completion order), mirroring `try_for_each` semantics:
  processing stops at the first failing worker;
- Rust panics as a distinct outcome from returned `Err` values.
-/

/-- A byte, modelled as a natural number (values 0..255 in practice). -/
def Byte := Nat

/-- A sequence of bytes: file contents, path components, archive entry names. -/
abbrev Bytes := List Nat

/-- ASCII string to bytes, for concrete examples (all claim inputs are ASCII). -/
def strB (s : String) : List Nat := s.data.map Char.toNat

/-- UTF-8 validator state: either between characters, or expecting `more + 1`
continuation bytes the first of which must lie in `[lo, hi]`. -/
inductive U8State where
  | start : U8State
  | need (lo hi : Nat) (more : Nat) : U8State
  | bad : U8State
deriving DecidableEq

/-- One step of the standard UTF-8 validation automaton (the check performed by
Rust's `str::from_utf8`, which `Path::to_str` uses). Rejects overlong forms,
surrogates and values above U+10FFFF. -/
def u8step : U8State → Nat → U8State
  | .start, b =>
    if b ≤ 0x7F then .start
    else if 0xC2 ≤ b ∧ b ≤ 0xDF then .need 0x80 0xBF 0
    else if b = 0xE0 then .need 0xA0 0xBF 1
    else if (0xE1 ≤ b ∧ b ≤ 0xEC) ∨ b = 0xEE ∨ b = 0xEF then .need 0x80 0xBF 1
    else if b = 0xED then .need 0x80 0x9F 1
    else if b = 0xF0 then .need 0x90 0xBF 2
    else if 0xF1 ≤ b ∧ b ≤ 0xF3 then .need 0x80 0xBF 2
    else if b = 0xF4 then .need 0x80 0x8F 2
    else .bad
  | .need lo hi more, b =>
    if lo ≤ b ∧ b ≤ hi then if more = 0 then .start else .need 0x80 0xBF (more - 1)
    else .bad
  | .bad, _ => .bad

/-- Whether a byte sequence is valid UTF-8 (models `Path::to_str(..).is_some()`). -/
def isValidUtf8 (l : List Nat) : Bool := (l.foldl u8step .start) = U8State.start

/-- A filesystem path: absolute flag plus the list of components, each a byte
sequence (Unix path components never contain byte 47). -/
structure RPath where
  abs : Bool
  comps : List (List Nat)
deriving DecidableEq

/-- Split a byte sequence on byte 47, dropping empty chunks (this is how
`Path::new` on a string yields components; repeated separators collapse). -/
def splitSlash (l : List Nat) : List (List Nat) :=
  (l.splitOn 47).filter (fun c => !c.isEmpty)

/-- Parse an archive entry name (as stored, a byte string) into a path, the way
`Path::new(file_name)` views it: absolute iff it starts with the separator. -/
def parsePath (l : List Nat) : RPath :=
  { abs := l.head? = some 47, comps := splitSlash l }

/-- Models `Path::join`: joining an absolute path replaces the base entirely. -/
def pathJoin (a b : RPath) : RPath :=
  if b.abs then b else { abs := a.abs, comps := a.comps ++ b.comps }

/-- Models `Path::parent`: `None` exactly for a root or empty path. -/
def pathParent (p : RPath) : Option RPath :=
  match p.comps with
  | [] => none
  | _ => some { abs := p.abs, comps := p.comps.dropLast }

/-- Models `Path::file_name`: the final component, or `None` when there is no
component or the path ends in a dot component (`..` or `.`). -/
def fileName (p : RPath) : Option (List Nat) :=
  match p.comps.getLast? with
  | none => none
  | some c => if c = [46, 46] ∨ c = [46] then none else some c

/-- The child of a directory path obtained by appending one component. -/
def childP (p : RPath) (c : List Nat) : RPath :=
  { abs := p.abs, comps := p.comps ++ [c] }

/-- Strict descendant relation between paths: `q` lies strictly below `d`. -/
def strictUnder (d q : RPath) : Prop :=
  d.abs = q.abs ∧ d.comps.length < q.comps.length ∧
    q.comps.take d.comps.length = d.comps

instance (d q : RPath) : Decidable (strictUnder d q) := by
  unfold strictUnder; infer_instance

/-- The name of an archive entry built from relative components, as produced by
`relative_path.to_str()`: the components joined by the separator byte. -/
def joinName (rel : List (List Nat)) : List Nat := List.intercalate [47] rel

/-- One archive entry: stored name bytes, payload, and the ZipCrypto credential
it was encrypted with (`none` for a plain entry). The container format is an
external codec (spec section 1 treats it as out of scope), so an archive is
modelled as its entry sequence. -/
structure ZEntry where
  name : List Nat
  data : List Nat
  encryption : Option (List Nat)
deriving DecidableEq

/-- Contents of a file on the modelled filesystem: raw bytes, or a ZIP archive
written by the builder (kept structured rather than serialized, since
serialization belongs to the external codec). -/
inductive FileData where
  | bytes (b : List Nat) : FileData
  | zip (entries : List ZEntry) : FileData
deriving DecidableEq

/-- The modelled filesystem: an association of file paths to contents, plus the
set of existing directories. -/
structure FS where
  files : List (RPath × FileData)
  dirs : List RPath
deriving DecidableEq

/-- Look up the data of the file at `p`, if any. -/
def lookupFile (fs : FS) (p : RPath) : Option FileData :=
  (fs.files.find? (fun qd => qd.1 = p)).map (fun qd => qd.2)

/-- Create or overwrite the file at `p` (models `File::create` + writing). -/
def setFile (fs : FS) (p : RPath) (d : FileData) : FS :=
  if (fs.files.find? (fun qd => qd.1 = p)).isSome then
    { fs with files := fs.files.map (fun qd => if qd.1 = p then (p, d) else qd) }
  else
    { fs with files := fs.files ++ [(p, d)] }

/-- Whether a regular file exists at `p` (models `Path::is_file`). -/
def isFileB (fs : FS) (p : RPath) : Bool := (lookupFile fs p).isSome

/-- Whether a directory exists at `p` (models `Path::is_dir`); the filesystem
root always exists. -/
def isDirB (fs : FS) (p : RPath) : Bool :=
  (p.abs && p.comps.isEmpty) || fs.dirs.contains p

/-- Whether anything exists at `p` (models `Path::exists`). -/
def pathExistsB (fs : FS) (p : RPath) : Bool := isFileB fs p || isDirB fs p

/-- All paths present on the filesystem (file paths and directories). -/
def allPaths (fs : FS) : List RPath := fs.files.map Prod.fst ++ fs.dirs

/-- If `q` lies strictly below `d`, the name of the child of `d` on the way to
`q`; otherwise `none`. -/
def childName (d q : RPath) : Option (List Nat) :=
  if strictUnder d q then q.comps[d.comps.length]? else none

/-- Models `fs::read_dir`: the names of the immediate children of `d`, derived
from all paths lying below `d` (deduplicated; order is the model's fixed
enumeration order, which no claim depends on). -/
def readDir (fs : FS) (d : RPath) : List (List Nat) :=
  ((allPaths fs).filterMap (childName d)).dedup

/-- The raw bytes obtained by `File::open` + `io::copy` from a file's data.
Reading back a builder-written archive as raw bytes would need the external
serializer; it is represented as `[]` and never reached in any claim. -/
def contentBytes : Option FileData → List Nat
  | some (.bytes b) => b
  | some (.zip _) => []
  | none => []

/-- The longest component count among all paths on the filesystem; bounds the
depth of any directory traversal. -/
def maxLenFS (fs : FS) : Nat :=
  ((allPaths fs).map (fun p => p.comps.length)).foldr max 0

/-- Well-formedness of a modelled filesystem, the invariants a real Unix tree
satisfies: every proper nonempty prefix of an existing path is a directory, no
path is both a file and a directory, file paths are unique and nonempty, and no
component is empty, contains the separator, or is a dot component. -/
def wfFS (fs : FS) : Bool :=
  (allPaths fs).all (fun q =>
      (List.range q.comps.length).all (fun j =>
        j = 0 || fs.dirs.contains { abs := q.abs, comps := q.comps.take j })) &&
  fs.files.all (fun qd => !fs.dirs.contains qd.1) &&
  (fs.files.map Prod.fst).Nodup &&
  (allPaths fs).all (fun q =>
      q.comps.all (fun c => !c.isEmpty && !c.contains 47 && c ≠ [46] && c ≠ [46, 46])) &&
  fs.files.all (fun qd => !qd.1.comps.isEmpty)

/-- The error kinds of the specification (spec section 7). The code itself
carries `Box<dyn Error>` values; these constructors name its failure points.
`invalidEntryPathError` is spec vocabulary only: as proved below, the code
never produces it. -/
inductive ZipError where
  | ioError : ZipError
  | corruptArchiveError : ZipError
  | invalidEntryIndexError : ZipError
  | missingCredentialError : ZipError
  | decryptionError : ZipError
  | invalidEntryPathError : ZipError
deriving DecidableEq

/-- The entry decoder of the external codec (`by_index` / `by_index_decrypt`
of the zip crate), per its documented contract (spec section 4.3): a plain
entry decodes regardless of the credential; an encrypted entry with no
credential fails with the password-required error; with the matching credential
it yields the original payload; a rejected credential fails (the legacy
scheme's 1-in-256 false accept is collapsed into rejection, which no claim
distinguishes). -/
def decodeEntry (e : ZEntry) (cred : Option (List Nat)) : Except ZipError (List Nat) :=
  match e.encryption, cred with
  | none, _ => .ok e.data
  | some _, none => .error .missingCredentialError
  | some pw, some c => if c = pw then .ok e.data else .error .decryptionError

/-- Insert into the name-to-bytes mapping, replacing an existing binding
(models `HashMap::insert`). -/
def insertRep : List (List Nat × List Nat) → List Nat → List Nat → List (List Nat × List Nat)
  | [], k, v => [(k, v)]
  | e :: m, k, v => if e.1 = k then (k, v) :: m else e :: insertRep m k v

/-- Look up a key in the name-to-bytes mapping. -/
def lookupM (m : List (List Nat × List Nat)) (k : List Nat) : Option (List Nat) :=
  (m.find? (fun e => e.1 = k)).map (fun e => e.2)

/-!
## The parallel buffering engine: `read_zip_contents_into_buffer`
(src/zip_reader.rs lines 155-188)

Workers are fanned out over entry ordinals `0..entry_count`; `sched` lists the
ordinals in the order the workers complete their inserts.  `try_for_each`
aborts at the first failing worker and propagates that failure (the `?` on
line 185), so the loop below stops at the first error and the function returns
exactly one error and no mapping.
-/

/-- The per-schedule worker loop of `read_zip_contents_into_buffer`: each
worker decodes its entry (`by_index` / `by_index_decrypt`) and inserts
`(name, bytes)` into the shared mapping. -/
def readLoop (es : List ZEntry) (cred : Option (List Nat)) :
    List Nat → List (List Nat × List Nat) → Except ZipError (List (List Nat × List Nat))
  | [], acc => .ok acc
  | i :: rest, acc =>
    match es[i]? with
    | none => .error .invalidEntryIndexError
    | some e =>
      match decodeEntry e cred with
      | .error err => .error err
      | .ok b => readLoop es cred rest (insertRep acc e.name b)

/-- Models `read_zip_contents_into_buffer`: open and memory-map the archive
(fails with an I/O error when absent), parse it (fails when the file is not an
archive), then run the workers.  `sched` is the workers' completion order. -/
def read_zip_contents_into_buffer (fs : FS) (zipPath : RPath)
    (password : Option (List Nat)) (sched : List Nat) :
    Except ZipError (List (List Nat × List Nat)) :=
  match lookupFile fs zipPath with
  | none => .error .ioError
  | some (.bytes _) => .error .corruptArchiveError
  | some (.zip es) => readLoop es password sched []

/-!
## The parallel extraction engine: `extract_zip`
(src/zip_reader.rs lines 63-96)

The crucial property of the source: the `Result` of `indexes.par_iter()
.try_for_each(...)` on lines 75-94 is discarded (no `?`, no use), and line 95
returns `Ok(())`.  Worker failures therefore never reach the caller: only the
open/mmap/parse steps (lines 70-72) can make `extract_zip` return an error.
-/

/-- Create all missing ancestors of `p` together with `p` itself
(models `fs::create_dir_all`). -/
def mkDirAll (fs : FS) (p : RPath) : FS :=
  let newDirs : List RPath :=
    (List.range p.comps.length).map
      (fun j => { abs := p.abs, comps := p.comps.take (j + 1) })
  { fs with dirs := fs.dirs ++ newDirs }

/-- Models `File::create(path)` followed by writing `data`: fails when the
target is an existing directory, otherwise creates or truncates the file. -/
def createFileW (fs : FS) (p : RPath) (data : List Nat) : Option FS :=
  if isDirB fs p then none else some (setFile fs p (.bytes data))

/-- One extraction worker (the closure on lines 76-93): decode the entry,
join its stored name onto `extract_path`, create the missing parent directory
if the name resolves to one, then create the output file and stream the bytes
into it. An entry whose joined path has no parent gets no parent handling at
all (the `if let` on line 85 simply skips), and its `File::create` then fails
on the root. -/
def extractWorker (fs : FS) (extractPath : RPath) (cred : Option (List Nat))
    (es : List ZEntry) (i : Nat) : Except ZipError FS :=
  match es[i]? with
  | none => .error .invalidEntryIndexError
  | some e =>
    match decodeEntry e cred with
    | .error err => .error err
    | .ok data =>
      let outputPath := pathJoin extractPath (parsePath e.name)
      let fs1 :=
        match pathParent outputPath with
        | some parentDir => if pathExistsB fs parentDir then fs else mkDirAll fs parentDir
        | none => fs
      match createFileW fs1 outputPath data with
      | none => .error .ioError
      | some fs2 => .ok fs2

/-- The worker fan-out of `extract_zip`: workers run in schedule order;
`try_for_each` stops at the first failure, whose error the source then drops. -/
def extractLoop (fs : FS) (extractPath : RPath) (cred : Option (List Nat))
    (es : List ZEntry) : List Nat → FS
  | [] => fs
  | i :: rest =>
    match extractWorker fs extractPath cred es i with
    | .error _ => fs
    | .ok fs2 => extractLoop fs2 extractPath cred es rest

/-- Models `extract_zip`: open, memory-map and parse the archive (lines 70-72,
failures returned via `?`), then fan the workers out.  The workers' combined
`Result` is discarded by the source (lines 75-94 end in `;` and line 95 returns
`Ok(())`), so the first component is `.ok ()` whenever the archive opens,
regardless of worker failures. -/
def extract_zip (fs : FS) (zipPath extractPath : RPath)
    (password : Option (List Nat)) (sched : List Nat) : Except ZipError Unit × FS :=
  match lookupFile fs zipPath with
  | none => (.error .ioError, fs)
  | some (.bytes _) => (.error .corruptArchiveError, fs)
  | some (.zip es) => (.ok (), extractLoop fs extractPath password es sched)

/-!
## The archive builder (src/zip_writer.rs)

Both builders panic (not return an error) when the output path already exists,
then create the output file before any input is examined.  `stuck` is a model
artifact: the explicit work-list loop is given a fuel bound, and `stuck` is
returned only when the fuel is exhausted with work remaining; every theorem
below supplies enough fuel for the bound never to be reached.
-/

/-- Outcome of a builder call, separating returned `Err` values from panics. -/
inductive BuildOut where
  | ok : BuildOut
  | panicOutputExists : BuildOut
  | panicNonUtf8 : BuildOut
  | errInvalidFileName : BuildOut
  | errIoError : BuildOut
  | stuck : BuildOut
deriving DecidableEq

/-- Whether a builder outcome is a returned error value (a Rust `Err`). -/
def isReturnedError : BuildOut → Bool
  | .errInvalidFileName => true
  | .errIoError => true
  | _ => false

/-- Whether a builder outcome is a panic. -/
def isPanicked : BuildOut → Bool
  | .panicOutputExists => true
  | .panicNonUtf8 => true
  | _ => false

/-- The first loop of `create_zip_from_files` (lines 124-128): compute each
input's base name via `file_name().ok_or("Invalid file name")?`; the first
input without a base name aborts the call with that error. -/
def initPairs : List RPath → Option (List (RPath × List (List Nat)))
  | [] => some []
  | p :: rest =>
    match fileName p with
    | none => none
    | some b => (initPairs rest).map (fun prs => (p, [b]) :: prs)

/-- The work-list loop of `create_zip_from_files` (lines 130-143).  The stack's
head is its top (`Vec::pop` takes the last push, so pushed children are
processed in reverse push order).  A directory's children are pushed; a file is
appended to the archive after `relative_path.to_str().unwrap()`, which panics
on non-UTF-8; anything else is skipped. -/
def buildLoop (fs : FS) : Nat → List (RPath × List (List Nat)) →
    List (List Nat × List Nat) → BuildOut × List (List Nat × List Nat)
  | _, [], acc => (.ok, acc)
  | 0, _ :: _, acc => (.stuck, acc)
  | fuel + 1, (p, rel) :: rest, acc =>
    if isDirB fs p then
      buildLoop fs fuel
        (((readDir fs p).map (fun c => (childP p c, rel ++ [c]))).reverse ++ rest) acc
    else if isFileB fs p then
      let nm := joinName rel
      if isValidUtf8 nm then
        buildLoop fs fuel rest (acc ++ [(nm, contentBytes (lookupFile fs p))])
      else (.panicNonUtf8, acc)
    else buildLoop fs fuel rest acc

/-- Models `create_zip_from_files` (lines 110-147): panic if the output exists
(line 117), create the output file (line 119), resolve the inputs' base names
(lines 124-128), then run the work-list loop and finish.  The second component
is the filesystem after the call; on every path past the existence check the
output file is present, holding the entries written so far. -/
def create_zip_from_files (fs : FS) (outP : RPath) (inputs : List RPath)
    (fuel : Nat) : BuildOut × FS :=
  if pathExistsB fs outP then (.panicOutputExists, fs)
  else
    let fs1 := setFile fs outP (.zip [])
    match initPairs inputs with
    | none => (.errInvalidFileName, fs1)
    | some prs =>
      match buildLoop fs1 fuel prs.reverse [] with
      | (o, entries) =>
        (o, setFile fs1 outP (.zip (entries.map (fun e => ⟨e.1, e.2, none⟩))))

/-- The per-directory scan of `create_zip_from_folder` (lines 57-69): iterate
over `read_dir` in order, collecting child directories to visit and writing
each file under its path relative to the root (`strip_prefix`), with the same
non-UTF-8 panic; a child that is neither yields the `File::open` I/O error. -/
def folderScan (fs : FS) (root d : RPath) :
    List (List Nat) → List RPath → List (List Nat × List Nat) →
    BuildOut × List RPath × List (List Nat × List Nat)
  | [], ds, acc => (.ok, ds, acc)
  | c :: cs, ds, acc =>
    let p := childP d c
    if isDirB fs p then folderScan fs root d cs (ds ++ [p]) acc
    else
      let nm := joinName (p.comps.drop root.comps.length)
      if isValidUtf8 nm then
        if isFileB fs p then
          folderScan fs root d cs ds (acc ++ [(nm, contentBytes (lookupFile fs p))])
        else (.errIoError, ds, acc)
      else (.panicNonUtf8, ds, acc)

/-- The directory work-list loop of `create_zip_from_folder` (lines 56-70):
pop a directory (`Vec::pop` takes the last push), fail with an I/O error if it
cannot be read, otherwise scan it and push its child directories. -/
def folderLoop (fs : FS) (root : RPath) : Nat → List RPath →
    List (List Nat × List Nat) → BuildOut × List (List Nat × List Nat)
  | _, [], acc => (.ok, acc)
  | 0, _ :: _, acc => (.stuck, acc)
  | fuel + 1, d :: rest, acc =>
    if isDirB fs d then
      match folderScan fs root d (readDir fs d) [] acc with
      | (.ok, ds, acc2) => folderLoop fs root fuel (ds.reverse ++ rest) acc2
      | (o, _, acc2) => (o, acc2)
    else (.errIoError, acc)

/-- Models `create_zip_from_folder` (lines 40-74): panic if the output exists
(line 47), create the output file (line 51), then walk the folder tree with an
explicit directory work-list, preserving paths relative to the root. -/
def create_zip_from_folder (fs : FS) (outP folderP : RPath) (fuel : Nat) :
    BuildOut × FS :=
  if pathExistsB fs outP then (.panicOutputExists, fs)
  else
    let fs1 := setFile fs outP (.zip [])
    match folderLoop fs1 folderP fuel [folderP] [] with
    | (o, entries) =>
      (o, setFile fs1 outP (.zip (entries.map (fun e => ⟨e.1, e.2, none⟩))))

/-- Decidable equality of `Except` results, for concrete evaluation. -/
instance {α β : Type} [DecidableEq α] [DecidableEq β] : DecidableEq (Except α β) :=
  fun a b =>
    match a, b with
    | .ok x, .ok y => if h : x = y then .isTrue (by rw [h]) else .isFalse (by simp [h])
    | .error x, .error y => if h : x = y then .isTrue (by rw [h]) else .isFalse (by simp [h])
    | .ok _, .error _ => .isFalse (by simp)
    | .error _, .ok _ => .isFalse (by simp)

/-!
## Specification-side mapping (for claim C3)

`specUnder` renders the claim's words directly: a file input contributes its
base name with its content; a directory input contributes, for every file
strictly below it, the file's path relative to the directory prefixed by the
directory's base name.  It is compared against the builder + reader pipeline.
-/

/-- The entries the specification promises for one traversal root `p` to be
archived under relative components `rel`. -/
def specUnder (fs : FS) (p : RPath) (rel : List (List Nat)) :
    List (List Nat × List Nat) :=
  if isDirB fs p then
    fs.files.filterMap (fun qd =>
      if strictUnder p qd.1 then
        some (joinName (rel ++ qd.1.comps.drop p.comps.length), contentBytes (some qd.2))
      else none)
  else if isFileB fs p then [(joinName rel, contentBytes (lookupFile fs p))]
  else []

/-- The specification's entries for one input path of `create_zip_from_files`:
everything under it, prefixed by its base name. -/
def specFor (fs : FS) (p : RPath) : List (List Nat × List Nat) :=
  match fileName p with
  | none => []
  | some b => specUnder fs p [b]

/-- The specification's mapping for a full input list. -/
def specList (fs : FS) (inputs : List RPath) : List (List Nat × List Nat) :=
  (inputs.map (specFor fs)).flatten

/-!
## Traversal analysis

`nodesB` is the tree of work-list pops performed by `buildLoop` from one root,
with an explicit depth bound `b`; since every directory's children extend an
existing filesystem path, any bound exceeding `maxLenFS fs - depth` is exact
(`nodesB_stab`).  `harv` selects the archive entries written from those pops.
-/

/-- All work-list pairs popped by the traversal from root pair `pr`, to depth
`b`, in pop order. -/
def nodesB (fs : FS) : Nat → (RPath × List (List Nat)) → List (RPath × List (List Nat))
  | 0, pr => [pr]
  | b + 1, (p, rel) =>
    if isDirB fs p then
      (p, rel) ::
        (((readDir fs p).reverse.map (fun c => nodesB fs b (childP p c, rel ++ [c]))).flatten)
    else [(p, rel)]

/-- The archive entry a single popped pair contributes, if any: directories
and nonexistent paths contribute nothing, a file contributes its joined
relative name and content. -/
def fileEntry (fs : FS) (pr : RPath × List (List Nat)) : Option (List Nat × List Nat) :=
  if isDirB fs pr.1 then none
  else if isFileB fs pr.1 then some (joinName pr.2, contentBytes (lookupFile fs pr.1))
  else none

/-- The depth bound sufficient for every traversal of `fs`. -/
def topB (fs : FS) : Nat := maxLenFS fs + 1

/-- The entries harvested from one root pair at depth bound `b`. -/
def harv (fs : FS) (b : Nat) (pr : RPath × List (List Nat)) : List (List Nat × List Nat) :=
  (nodesB fs b pr).filterMap (fileEntry fs)

/-- The entries the work-list loop will write from a whole stack. -/
def stackHarv (fs : FS) (stack : List (RPath × List (List Nat))) :
    List (List Nat × List Nat) :=
  (stack.map (harv fs (topB fs))).flatten

/-- The number of loop iterations a whole stack costs. -/
def stackCost (fs : FS) (stack : List (RPath × List (List Nat))) : Nat :=
  (stack.map (fun pr => (nodesB fs (topB fs) pr).length)).sum


/-- The insertion a read worker for ordinal `i` performs, if it succeeds:
the entry's name paired with its decoded bytes. -/
def toIns (es : List ZEntry) (cred : Option (List Nat)) (i : Nat) :
    Option (List Nat × List Nat) :=
  match es[i]? with
  | none => none
  | some e =>
    match decodeEntry e cred with
    | .ok b => some (e.name, b)
    | .error _ => none

/-- Fold step of the read workers over the shared mapping. -/
def stepIns (es : List ZEntry) (cred : Option (List Nat))
    (m : List (List Nat × List Nat)) (i : Nat) : List (List Nat × List Nat) :=
  match toIns es cred i with
  | some kv => insertRep m kv.1 kv.2
  | none => m

/-- The number of entries of the archive stored at `p` (zero when `p` is not
an archive); the natural worker count of a read. -/
def archLen (fs : FS) (p : RPath) : Nat :=
  match lookupFile fs p with
  | some (.zip es) => es.length
  | _ => 0

/-- The entries the specification promises for `create_zip_from_folder`: every
file strictly below the root, under its root-relative path. -/
def specFolder (fs : FS) (root : RPath) : List (List Nat × List Nat) :=
  fs.files.filterMap (fun qd =>
    if strictUnder root qd.1 then
      some (joinName (qd.1.comps.drop root.comps.length), contentBytes (some qd.2))
    else none)

/-- The child directories of `d`, in `read_dir` order. -/
def dirChildren (fs : FS) (d : RPath) : List RPath :=
  (readDir fs d).filterMap
    (fun c => if isDirB fs (childP d c) then some (childP d c) else none)

/-- The directory pops performed by the folder walk from `d`, to depth `b`. -/
def dirNodesB (fs : FS) : Nat → RPath → List RPath
  | 0, d => [d]
  | b + 1, d => d :: ((dirChildren fs d).map (dirNodesB fs b)).flatten

/-- The number of folder-walk iterations a directory work-list costs. -/
def visitCost (fs : FS) (toVisit : List RPath) : Nat :=
  (toVisit.map (fun d => (dirNodesB fs (topB fs) d).length)).sum

/-!
## Concrete inputs used by individual claim theorems
-/

/-- Claim C1 input: an archive with one ZipCrypto entry and one plain entry. -/
def fsC1 : FS :=
  { files := [({ abs := false, comps := [strB "locked.zip"] },
      .zip [⟨strB "a.txt", strB "alpha", some (strB "pw")⟩,
            ⟨strB "b.txt", strB "beta", none⟩])],
    dirs := [] }

/-- Claim C1 input: the archive path. -/
def zpC1 : RPath := { abs := false, comps := [strB "locked.zip"] }

/-- Claim C1 input: the extraction directory. -/
def destC1 : RPath := { abs := true, comps := [strB "o1"] }

/-- Claim C2 witness input: a filesystem with a file at the output path. -/
def fsC2 : FS :=
  { files := [({ abs := false, comps := [strB "exists.zip"] }, .bytes (strB "old"))],
    dirs := [{ abs := false, comps := [strB "folder"] }] }

/-- Claim C2 witness input: the already-occupied output path. -/
def outC2 : RPath := { abs := false, comps := [strB "exists.zip"] }

/-- Claim C3 scenario input: `root.txt = b"Root"` and `sub/subfile.txt =
b"Subfile"` (spec section 8's concrete scenario). -/
def fsT : FS :=
  { files := [({ abs := false, comps := [strB "root.txt"] }, .bytes (strB "Root")),
              ({ abs := false, comps := [strB "sub", strB "subfile.txt"] },
                .bytes (strB "Subfile"))],
    dirs := [{ abs := false, comps := [strB "sub"] }] }

/-- Claim C3 scenario input: the fresh output path `c.zip`. -/
def outT : RPath := { abs := false, comps := [strB "c.zip"] }

/-- Claim C3 scenario input: the input list `[root.txt, sub]`. -/
def inT : List RPath :=
  [{ abs := false, comps := [strB "root.txt"] },
   { abs := false, comps := [strB "sub"] }]

/-- Claim C3 counterexample input: two files with the same base name `x` in
different directories, with different one-byte contents. -/
def fsX : FS :=
  { files := [({ abs := false, comps := [[97], [120]] }, .bytes [48]),
              ({ abs := false, comps := [[98], [120]] }, .bytes [49])],
    dirs := [{ abs := false, comps := [[97]] }, { abs := false, comps := [[98]] }] }

/-- Claim C3 counterexample input: the fresh output path. -/
def outX : RPath := { abs := false, comps := [[122]] }

/-- Claim C3 counterexample input: both colliding files listed. -/
def inX : List RPath :=
  [{ abs := false, comps := [[97], [120]] }, { abs := false, comps := [[98], [120]] }]

/-- Claim C4 input: an archive with a single encrypted entry. -/
def fsC4 : FS :=
  { files := [({ abs := false, comps := [strB "sec.zip"] },
      .zip [⟨strB "t.txt", strB "topsecret", some (strB "hunter2")⟩])],
    dirs := [] }

/-- Claim C4 input: the archive path. -/
def zpC4 : RPath := { abs := false, comps := [strB "sec.zip"] }

/-- Claim C4 input: the extraction directory. -/
def destC4 : RPath := { abs := true, comps := [strB "o4"] }

/-- Claim C5 witness input: an archive whose single entry is encrypted. -/
def fsC5 : FS :=
  { files := [({ abs := false, comps := [strB "c5.zip"] },
      .zip [⟨strB "e.txt", strB "data5", some (strB "k5")⟩])],
    dirs := [] }

/-- Claim C5 witness input: the archive path. -/
def zpC5 : RPath := { abs := false, comps := [strB "c5.zip"] }

/-- Claim C6 counterexample input: one file whose name is the invalid UTF-8
byte 0xFF. -/
def fsC6 : FS :=
  { files := [({ abs := false, comps := [[255]] }, .bytes [7])], dirs := [] }

/-- Claim C6 counterexample input: the fresh output path. -/
def outC6 : RPath := { abs := false, comps := [strB "c6.zip"] }

/-- Claim C6 witness input: a folder `d` containing a file named 0xFF, plus a
valid sibling file. -/
def fsC6w : FS :=
  { files := [({ abs := false, comps := [strB "d", [255]] }, .bytes [9]),
              ({ abs := false, comps := [strB "ok.txt"] }, .bytes [1])],
    dirs := [{ abs := false, comps := [strB "d"] }] }

/-- Claim C6 witness input: a fresh output path for the list builder. -/
def outC6a : RPath := { abs := false, comps := [strB "c6a.zip"] }

/-- Claim C6 witness input: a fresh output path for the folder builder. -/
def outC6b : RPath := { abs := false, comps := [strB "c6b.zip"] }

/-- Claim C7 counterexample input: an archive whose entry is named `/`. -/
def fsC7 : FS :=
  { files := [({ abs := false, comps := [strB "bad.zip"] },
      .zip [⟨[47], strB "payload", none⟩])],
    dirs := [] }

/-- Claim C7 counterexample input: the archive path. -/
def zpC7 : RPath := { abs := false, comps := [strB "bad.zip"] }

/-- Claim C7 counterexample input: the extraction directory. -/
def destC7 : RPath := { abs := true, comps := [strB "d7"] }

/-- Claim C7 witness input: an archive with a plain entry followed by an entry
named `//` (also resolving to the root). -/
def fsC7w : FS :=
  { files := [({ abs := false, comps := [strB "w7.zip"] },
      .zip [⟨strB "fine.txt", strB "fine", none⟩, ⟨[47, 47], strB "oops", none⟩])],
    dirs := [] }

/-- Claim C7 witness input: the archive path. -/
def zpC7w : RPath := { abs := false, comps := [strB "w7.zip"] }

/-- Claim C7 witness input: the extraction directory. -/
def destC7w : RPath := { abs := true, comps := [strB "w7out"] }

/-- Claim C8 witness input: an archive with two distinct plain entries. -/
def fsC8 : FS :=
  { files := [({ abs := false, comps := [strB "c8.zip"] },
      .zip [⟨strB "one.txt", strB "first", none⟩,
            ⟨strB "two.txt", strB "second", none⟩])],
    dirs := [] }

/-- Claim C8 witness input: the archive path. -/
def zpC8 : RPath := { abs := false, comps := [strB "c8.zip"] }

/-- Claim C9 witness input: an empty filesystem. -/
def fsC9 : FS := { files := [], dirs := [] }

/-- Claim C9 witness input: the output path. -/
def outC9 : RPath := { abs := false, comps := [strB "c9.zip"] }

/-- Claim C10 witness input: one real file; the listed ghost path does not
exist. -/
def fsC10 : FS :=
  { files := [({ abs := false, comps := [strB "real.txt"] }, .bytes (strB "real"))],
    dirs := [] }

/-- Claim C10 witness input: the output path. -/
def outC10 : RPath := { abs := false, comps := [strB "c10.zip"] }

/-- Claim C10 witness input: the nonexistent listed path. -/
def ghostC10 : RPath := { abs := false, comps := [strB "ghost.txt"] }

/-!
## Basic lemmas about the traversal
-/

/-- Every member of a list of naturals is bounded by its max-fold. -/
lemma le_foldr_max {l : List Nat} {x : Nat} (h : x ∈ l) : x ≤ l.foldr max 0 := by
  induction l with
  | nil => cases h
  | cons a t ih =>
    rcases List.mem_cons.mp h with rfl | h2
    · exact le_max_left _ _
    · exact le_trans (ih h2) (le_max_right _ _)

/-- Any existing path has at most `maxLenFS fs` components. -/
lemma mem_allPaths_le_maxLen {fs : FS} {q : RPath} (h : q ∈ allPaths fs) :
    q.comps.length ≤ maxLenFS fs :=
  le_foldr_max (List.mem_map_of_mem _ h)

/-- A directory deeper than every existing path has no children. -/
lemma readDir_nil {fs : FS} {d : RPath} (h : maxLenFS fs < d.comps.length) :
    readDir fs d = [] := by
  unfold readDir
  have hall : ∀ q ∈ allPaths fs, childName d q = none := by
    intro q hq
    unfold childName
    rw [if_neg]
    rintro ⟨-, hlt, -⟩
    have := mem_allPaths_le_maxLen hq
    omega
  rw [List.filterMap_eq_nil_iff.mpr hall]
  rfl

/-- `filterMap` distributes over `flatten`. -/
lemma filterMap_flatten_eq {α β : Type} (f : α → Option β) (L : List (List α)) :
    L.flatten.filterMap f = (L.map (fun l => l.filterMap f)).flatten := by
  induction L with
  | nil => rfl
  | cons a t ih => simp [List.filterMap_append, ih]

/-- A non-directory contributes a single work-list pop at any depth. -/
lemma nodesB_nonDir {fs : FS} {p : RPath} {rel : List (List Nat)}
    (h : ¬ isDirB fs p = true) (b : Nat) : nodesB fs b (p, rel) = [(p, rel)] := by
  cases b <;> simp [nodesB, h]

/-- The pop tree is independent of the depth bound once the bound exceeds the
remaining depth of the filesystem. -/
lemma nodesB_stab {fs : FS} :
    ∀ (b b' : Nat) (p : RPath) (rel : List (List Nat)),
      maxLenFS fs < p.comps.length + b → maxLenFS fs < p.comps.length + b' →
      nodesB fs b (p, rel) = nodesB fs b' (p, rel) := by
  intro b
  induction b with
  | zero =>
    intro b' p rel hb hb'
    have hrd : readDir fs p = [] := readDir_nil (by omega)
    cases b' with
    | zero => rfl
    | succ b1 =>
      by_cases hd : isDirB fs p = true
      · simp [nodesB, hd, hrd]
      · simp [nodesB, hd]
  | succ b0 ih =>
    intro b' p rel hb hb'
    cases b' with
    | zero =>
      have hrd : readDir fs p = [] := readDir_nil (by omega)
      by_cases hd : isDirB fs p = true
      · simp [nodesB, hd, hrd]
      · simp [nodesB, hd]
    | succ b1 =>
      by_cases hd : isDirB fs p = true
      · simp only [nodesB, hd, if_true]
        congr 1
        congr 1
        apply List.map_congr_left
        intro c _
        apply ih
        · simp [childP]; omega
        · simp [childP]; omega
      · simp [nodesB, hd]

/-- Every pop tree is nonempty. -/
lemma nodesB_length_pos {fs : FS} (b : Nat) (pr : RPath × List (List Nat)) :
    1 ≤ (nodesB fs b pr).length := by
  obtain ⟨p, rel⟩ := pr
  cases b with
  | zero => simp [nodesB]
  | succ b0 =>
    by_cases hd : isDirB fs p = true
    · simp [nodesB, hd]
    · simp [nodesB, hd]

/-- Harvest and cost decomposition helpers. -/
lemma stackHarv_nil {fs : FS} : stackHarv fs [] = [] := rfl

/-- The harvest of a stack decomposes over its head. -/
lemma stackHarv_cons {fs : FS} (pr : RPath × List (List Nat))
    (s : List (RPath × List (List Nat))) :
    stackHarv fs (pr :: s) = harv fs (topB fs) pr ++ stackHarv fs s := by
  simp [stackHarv]

/-- The harvest of a stack decomposes over concatenation. -/
lemma stackHarv_append {fs : FS} (s t : List (RPath × List (List Nat))) :
    stackHarv fs (s ++ t) = stackHarv fs s ++ stackHarv fs t := by
  simp [stackHarv]

/-- The cost of a stack decomposes over its head. -/
lemma stackCost_cons {fs : FS} (pr : RPath × List (List Nat))
    (s : List (RPath × List (List Nat))) :
    stackCost fs (pr :: s) = (nodesB fs (topB fs) pr).length + stackCost fs s := by
  simp [stackCost]

/-- The cost of a stack decomposes over concatenation. -/
lemma stackCost_append {fs : FS} (s t : List (RPath × List (List Nat))) :
    stackCost fs (s ++ t) = stackCost fs s + stackCost fs t := by
  simp [stackCost]

/-- The harvest of a file pop is its single entry. -/
lemma harv_file {fs : FS} {p : RPath} {rel : List (List Nat)} (b : Nat)
    (hd : ¬ isDirB fs p = true) (hf : isFileB fs p = true) :
    harv fs b (p, rel) = [(joinName rel, contentBytes (lookupFile fs p))] := by
  unfold harv
  rw [nodesB_nonDir hd]
  simp [fileEntry, hd, hf]

/-- The harvest of a pop at a nonexistent path is empty. -/
lemma harv_skip {fs : FS} {p : RPath} {rel : List (List Nat)} (b : Nat)
    (hd : ¬ isDirB fs p = true) (hf : ¬ isFileB fs p = true) :
    harv fs b (p, rel) = [] := by
  unfold harv
  rw [nodesB_nonDir hd]
  simp [fileEntry, hd, hf]

/-- The harvest of a directory pop is the concatenation of its children's
harvests, in pop order. -/
lemma harv_dir {fs : FS} {p : RPath} {rel : List (List Nat)}
    (hd : isDirB fs p = true) :
    harv fs (topB fs) (p, rel) =
      stackHarv fs (((readDir fs p).map
        (fun c => (childP p c, rel ++ [c]))).reverse) := by
  have hfe : fileEntry fs (p, rel) = none := by simp [fileEntry, hd]
  unfold harv topB
  show (nodesB fs (maxLenFS fs + 1) (p, rel)).filterMap (fileEntry fs) = _
  simp only [nodesB, hd, if_true]
  rw [List.filterMap_cons_none hfe]
  rw [filterMap_flatten_eq]
  unfold stackHarv harv topB
  rw [← List.map_reverse, List.map_map, List.map_map]
  congr 1
  apply List.map_congr_left
  intro c _
  simp only [Function.comp_apply]
  rw [nodesB_stab (maxLenFS fs) (maxLenFS fs + 1) (childP p c) (rel ++ [c])
        (by simp only [childP, List.length_append, List.length_cons, List.length_nil]; omega) (by simp only [childP, List.length_append, List.length_cons, List.length_nil]; omega)]

/-- The cost of a directory pop is one plus the cost of its children. -/
lemma cost_dir {fs : FS} {p : RPath} {rel : List (List Nat)}
    (hd : isDirB fs p = true) :
    (nodesB fs (topB fs) (p, rel)).length =
      1 + stackCost fs (((readDir fs p).map
        (fun c => (childP p c, rel ++ [c]))).reverse) := by
  unfold topB
  show (nodesB fs (maxLenFS fs + 1) (p, rel)).length = _
  simp only [nodesB, hd, if_true, List.length_cons]
  rw [List.length_flatten]
  unfold stackCost topB
  rw [← List.map_reverse, List.map_map, List.map_map]
  have hcong : List.map (List.length ∘ fun c => nodesB fs (maxLenFS fs) (childP p c, rel ++ [c]))
        (readDir fs p).reverse
      = List.map ((fun pr => (nodesB fs (maxLenFS fs + 1) pr).length) ∘
          fun c => (childP p c, rel ++ [c])) (readDir fs p).reverse := by
    apply List.map_congr_left
    intro c _
    simp only [Function.comp_apply]
    rw [nodesB_stab (maxLenFS fs) (maxLenFS fs + 1) (childP p c) (rel ++ [c])
          (by simp only [childP, List.length_append, List.length_cons, List.length_nil]; omega) (by simp only [childP, List.length_append, List.length_cons, List.length_nil]; omega)]
  rw [hcong]
  omega

/-- The work-list loop, given enough fuel and only valid UTF-8 names to write,
terminates successfully having appended exactly the stack's harvest. -/
lemma buildLoop_ok {fs : FS} :
    ∀ (fuel : Nat) (stack : List (RPath × List (List Nat)))
      (acc : List (List Nat × List Nat)),
      stackCost fs stack ≤ fuel →
      (∀ e ∈ stackHarv fs stack, isValidUtf8 e.1 = true) →
      buildLoop fs fuel stack acc = (.ok, acc ++ stackHarv fs stack) := by
  intro fuel
  induction fuel with
  | zero =>
    intro stack acc hc _
    cases stack with
    | nil => simp [buildLoop, stackHarv_nil]
    | cons pr rest =>
      exfalso
      have := @nodesB_length_pos fs (topB fs) pr
      rw [stackCost_cons] at hc
      omega
  | succ f ih =>
    intro stack acc hc hv
    cases stack with
    | nil => simp [buildLoop, stackHarv_nil]
    | cons pr rest =>
      obtain ⟨p, rel⟩ := pr
      rw [stackCost_cons] at hc
      by_cases hd : isDirB fs p = true
      · have hstep : buildLoop fs (f + 1) ((p, rel) :: rest) acc
            = buildLoop fs f
                (((readDir fs p).map (fun c => (childP p c, rel ++ [c]))).reverse ++ rest)
                acc := by
          simp [buildLoop, hd]
        rw [hstep]
        have hcost := @cost_dir _ _ rel hd
        have harvd := @harv_dir _ _ rel hd
        rw [ih _ acc (by rw [stackCost_append]; omega)
              (by intro e he
                  apply hv
                  rw [stackHarv_cons, stackHarv_append] at *
                  rw [harvd]
                  rcases List.mem_append.mp he with h1 | h2
                  · exact List.mem_append.mpr (Or.inl h1)
                  · exact List.mem_append.mpr (Or.inr h2))]
        rw [stackHarv_append, stackHarv_cons, harvd]
      · by_cases hf : isFileB fs p = true
        · have hval : isValidUtf8 (joinName rel) = true := by
            apply hv (joinName rel, contentBytes (lookupFile fs p))
            rw [stackHarv_cons, harv_file _ hd hf]
            simp
          have hstep : buildLoop fs (f + 1) ((p, rel) :: rest) acc
              = buildLoop fs f rest
                  (acc ++ [(joinName rel, contentBytes (lookupFile fs p))]) := by
            simp [buildLoop, hd, hf, hval]
          rw [hstep]
          have hpos := @nodesB_length_pos fs (topB fs) (p, rel)
          rw [ih _ _ (by omega)
                (by intro e he
                    apply hv
                    rw [stackHarv_cons]
                    exact List.mem_append.mpr (Or.inr he))]
          rw [stackHarv_cons, harv_file _ hd hf, List.append_assoc]
        · have hstep : buildLoop fs (f + 1) ((p, rel) :: rest) acc
              = buildLoop fs f rest acc := by
            simp [buildLoop, hd, hf]
          rw [hstep]
          have hpos := @nodesB_length_pos fs (topB fs) (p, rel)
          rw [ih _ _ (by omega)
                (by intro e he
                    apply hv
                    rw [stackHarv_cons]
                    exact List.mem_append.mpr (Or.inr he))]
          rw [stackHarv_cons, harv_skip _ hd hf]
          simp

/-- The work-list loop, given enough fuel, panics (the `to_str().unwrap()` on
zip_writer.rs line 139) whenever some entry it would write has a non-UTF-8
name. -/
lemma buildLoop_panic {fs : FS} :
    ∀ (fuel : Nat) (stack : List (RPath × List (List Nat)))
      (acc : List (List Nat × List Nat)),
      stackCost fs stack ≤ fuel →
      (∃ e ∈ stackHarv fs stack, ¬ isValidUtf8 e.1 = true) →
      (buildLoop fs fuel stack acc).1 = .panicNonUtf8 := by
  intro fuel
  induction fuel with
  | zero =>
    intro stack acc hc hex
    cases stack with
    | nil =>
      obtain ⟨e, he, -⟩ := hex
      rw [stackHarv_nil] at he
      cases he
    | cons pr rest =>
      exfalso
      have := @nodesB_length_pos fs (topB fs) pr
      rw [stackCost_cons] at hc
      omega
  | succ f ih =>
    intro stack acc hc hex
    cases stack with
    | nil =>
      obtain ⟨e, he, -⟩ := hex
      rw [stackHarv_nil] at he
      cases he
    | cons pr rest =>
      obtain ⟨p, rel⟩ := pr
      rw [stackCost_cons] at hc
      by_cases hd : isDirB fs p = true
      · have hstep : buildLoop fs (f + 1) ((p, rel) :: rest) acc
            = buildLoop fs f
                (((readDir fs p).map (fun c => (childP p c, rel ++ [c]))).reverse ++ rest)
                acc := by
          simp [buildLoop, hd]
        rw [hstep]
        apply ih
        · rw [stackCost_append]
          have hcost := @cost_dir _ _ rel hd
          omega
        · obtain ⟨e, he, hv⟩ := hex
          refine ⟨e, ?_, hv⟩
          rw [stackHarv_cons, @harv_dir _ _ rel hd] at he
          rw [stackHarv_append]
          exact he
      · by_cases hf : isFileB fs p = true
        · by_cases hval : isValidUtf8 (joinName rel) = true
          · have hstep : buildLoop fs (f + 1) ((p, rel) :: rest) acc
                = buildLoop fs f rest
                    (acc ++ [(joinName rel, contentBytes (lookupFile fs p))]) := by
              simp [buildLoop, hd, hf, hval]
            rw [hstep]
            have hpos := @nodesB_length_pos fs (topB fs) (p, rel)
            apply ih
            · omega
            · obtain ⟨e, he, hv⟩ := hex
              rw [stackHarv_cons, harv_file _ hd hf] at he
              rcases List.mem_append.mp he with h1 | h2
              · exfalso
                apply hv
                have : e = (joinName rel, contentBytes (lookupFile fs p)) := by
                  simpa using h1
                rw [this]
                exact hval
              · exact ⟨e, h2, hv⟩
          · have hstep : buildLoop fs (f + 1) ((p, rel) :: rest) acc
                = (.panicNonUtf8, acc) := by
              simp [buildLoop, hd, hf, hval]
            rw [hstep]
        · have hstep : buildLoop fs (f + 1) ((p, rel) :: rest) acc
              = buildLoop fs f rest acc := by
            simp [buildLoop, hd, hf]
          rw [hstep]
          have hpos := @nodesB_length_pos fs (topB fs) (p, rel)
          apply ih
          · omega
          · obtain ⟨e, he, hv⟩ := hex
            rw [stackHarv_cons, harv_skip _ hd hf] at he
            rw [List.nil_append] at he
            exact ⟨e, he, hv⟩

/-- Popping a work-list pair whose path names neither a file nor a directory
has no effect beyond consuming one loop iteration (zip_writer.rs lines
130-143: the `is_dir`/`is_file` chain has no else branch). -/
lemma buildLoop_skip {fs : FS} {p : RPath} {rel : List (List Nat)}
    (hd : ¬ isDirB fs p = true) (hf : ¬ isFileB fs p = true)
    (s2 : List (RPath × List (List Nat))) :
    ∀ (fuel : Nat) (s1 : List (RPath × List (List Nat)))
      (acc : List (List Nat × List Nat)),
      stackCost fs (s1 ++ s2) ≤ fuel →
      buildLoop fs (fuel + 1) (s1 ++ (p, rel) :: s2) acc
        = buildLoop fs fuel (s1 ++ s2) acc := by
  intro fuel
  induction fuel with
  | zero =>
    intro s1 acc hc
    cases s1 with
    | nil => simp [buildLoop, hd, hf]
    | cons pr s1t =>
      exfalso
      have := @nodesB_length_pos fs (topB fs) pr
      rw [List.cons_append, stackCost_cons] at hc
      omega
  | succ f ih =>
    intro s1 acc hc
    cases s1 with
    | nil => simp [buildLoop, hd, hf]
    | cons pr s1t =>
      obtain ⟨q, qrel⟩ := pr
      rw [List.cons_append, stackCost_cons] at hc
      by_cases hqd : isDirB fs q = true
      · have hstep1 : buildLoop fs (f + 1 + 1) ((q, qrel) :: (s1t ++ (p, rel) :: s2)) acc
            = buildLoop fs (f + 1)
                (((readDir fs q).map (fun c => (childP q c, qrel ++ [c]))).reverse
                  ++ (s1t ++ (p, rel) :: s2)) acc := by
          simp [buildLoop, hqd]
        have hstep2 : buildLoop fs (f + 1) ((q, qrel) :: (s1t ++ s2)) acc
            = buildLoop fs f
                (((readDir fs q).map (fun c => (childP q c, qrel ++ [c]))).reverse
                  ++ (s1t ++ s2)) acc := by
          simp [buildLoop, hqd]
        rw [List.cons_append, hstep1, List.cons_append, hstep2]
        rw [← List.append_assoc, ← List.append_assoc]
        apply ih
        rw [List.append_assoc]
        rw [stackCost_append]
        have hcost := @cost_dir _ _ qrel hqd
        rw [stackCost_append] at hc ⊢
        omega
      · by_cases hqf : isFileB fs q = true
        · by_cases hval : isValidUtf8 (joinName qrel) = true
          · have hstep1 : buildLoop fs (f + 1 + 1) ((q, qrel) :: (s1t ++ (p, rel) :: s2)) acc
                = buildLoop fs (f + 1) (s1t ++ (p, rel) :: s2)
                    (acc ++ [(joinName qrel, contentBytes (lookupFile fs q))]) := by
              simp [buildLoop, hqd, hqf, hval]
            have hstep2 : buildLoop fs (f + 1) ((q, qrel) :: (s1t ++ s2)) acc
                = buildLoop fs f (s1t ++ s2)
                    (acc ++ [(joinName qrel, contentBytes (lookupFile fs q))]) := by
              simp [buildLoop, hqd, hqf, hval]
            rw [List.cons_append, hstep1, List.cons_append, hstep2]
            apply ih
            have := @nodesB_length_pos fs (topB fs) (q, qrel)
            omega
          · have hstep1 : buildLoop fs (f + 1 + 1) ((q, qrel) :: (s1t ++ (p, rel) :: s2)) acc
                = (.panicNonUtf8, acc) := by
              simp [buildLoop, hqd, hqf, hval]
            have hstep2 : buildLoop fs (f + 1) ((q, qrel) :: (s1t ++ s2)) acc
                = (.panicNonUtf8, acc) := by
              simp [buildLoop, hqd, hqf, hval]
            rw [List.cons_append, hstep1, List.cons_append, hstep2]
        · have hstep1 : buildLoop fs (f + 1 + 1) ((q, qrel) :: (s1t ++ (p, rel) :: s2)) acc
              = buildLoop fs (f + 1) (s1t ++ (p, rel) :: s2) acc := by
            simp [buildLoop, hqd, hqf]
          have hstep2 : buildLoop fs (f + 1) ((q, qrel) :: (s1t ++ s2)) acc
              = buildLoop fs f (s1t ++ s2) acc := by
            simp [buildLoop, hqd, hqf]
          rw [List.cons_append, hstep1, List.cons_append, hstep2]
          apply ih
          have := @nodesB_length_pos fs (topB fs) (q, qrel)
          omega

/-!
## Well-formed filesystem facts
-/

/-- On a well-formed filesystem, every nonempty proper prefix of an existing
path is a directory. -/
lemma wf_prefix_dir {fs : FS} (hw : wfFS fs = true) {q : RPath}
    (hq : q ∈ allPaths fs) {j : Nat} (hj1 : 1 ≤ j) (hj2 : j < q.comps.length) :
    isDirB fs { abs := q.abs, comps := q.comps.take j } = true := by
  unfold wfFS at hw
  simp only [Bool.and_eq_true, List.all_eq_true] at hw
  obtain ⟨⟨⟨⟨h1, -⟩, -⟩, -⟩, -⟩ := hw
  have := h1 q hq j (by rw [List.mem_range]; omega)
  rcases Bool.or_eq_true _ _ |>.mp this with h0 | hdir
  · exfalso
    have : j = 0 := by simpa using h0
    omega
  · unfold isDirB
    rw [hdir]
    simp

/-- On a well-formed filesystem, no file path is a directory. -/
lemma wf_file_not_dir {fs : FS} (hw : wfFS fs = true) {qd : RPath × FileData}
    (h : qd ∈ fs.files) : ¬ isDirB fs qd.1 = true := by
  unfold wfFS at hw
  simp only [Bool.and_eq_true, List.all_eq_true] at hw
  obtain ⟨⟨⟨⟨-, h2⟩, -⟩, h4⟩, h5⟩ := hw
  have hnd := h2 qd h
  have hne := h5 qd h
  unfold isDirB
  intro hcontra
  rcases Bool.or_eq_true _ _ |>.mp hcontra with hroot | hmem
  · have : qd.1.comps.isEmpty = true := (Bool.and_eq_true _ _ |>.mp hroot).2
    simp only [Bool.not_eq_true'] at hne
    rw [this] at hne
    cases hne
  · simp only [Bool.not_eq_true'] at hnd
    rw [hmem] at hnd
    cases hnd

/-- On a well-formed filesystem, the file-path keys are distinct. -/
lemma wf_nodup {fs : FS} (hw : wfFS fs = true) : (fs.files.map Prod.fst).Nodup := by
  unfold wfFS at hw
  simp only [Bool.and_eq_true] at hw
  exact of_decide_eq_true hw.1.1.2

/-- In a list with distinct keys, `find?` at a present key returns its entry. -/
lemma find_of_mem_nodup {q : RPath} {d : FileData} :
    ∀ (l : List (RPath × FileData)), (l.map Prod.fst).Nodup → (q, d) ∈ l →
      l.find? (fun qd => qd.1 = q) = some (q, d) := by
  intro l
  induction l with
  | nil => intro _ h; cases h
  | cons a t ih =>
    intro hn hm
    rcases List.mem_cons.mp hm with rfl | hmt
    · simp [List.find?]
    · have hq : q ∈ t.map Prod.fst :=
        List.mem_map.mpr ⟨(q, d), hmt, rfl⟩
      rw [List.map_cons, List.nodup_cons] at hn
      have ha : ¬ a.1 = q := by
        intro e
        exact hn.1 (e ▸ hq)
      rw [List.find?_cons_of_neg _ (by simpa using ha)]
      exact ih hn.2 hmt

/-- On a well-formed filesystem, membership in the file list determines
`lookupFile`. -/
lemma lookupFile_of_mem {fs : FS} (hw : wfFS fs = true) {q : RPath}
    {d : FileData} (h : (q, d) ∈ fs.files) : lookupFile fs q = some d := by
  unfold lookupFile
  rw [find_of_mem_nodup fs.files (wf_nodup hw) h]
  rfl

/-- A file-list member is a file. -/
lemma isFileB_of_mem {fs : FS} (hw : wfFS fs = true) {q : RPath}
    {d : FileData} (h : (q, d) ∈ fs.files) : isFileB fs q = true := by
  unfold isFileB
  rw [lookupFile_of_mem hw h]
  rfl

/-- A file path is bounded by `maxLenFS`. -/
lemma file_le_maxLen {fs : FS} {qd : RPath × FileData} (h : qd ∈ fs.files) :
    qd.1.comps.length ≤ maxLenFS fs :=
  mem_allPaths_le_maxLen (by
    unfold allPaths
    exact List.mem_append.mpr (Or.inl (List.mem_map.mpr ⟨qd, h, rfl⟩)))

/-- A directory in the directory list is bounded by `maxLenFS`. -/
lemma dir_le_maxLen {fs : FS} {p : RPath} (h : p ∈ fs.dirs) :
    p.comps.length ≤ maxLenFS fs :=
  mem_allPaths_le_maxLen (by
    unfold allPaths
    exact List.mem_append.mpr (Or.inr h))

/-!
## Directory children and descent
-/

/-- The child name on the way from `d` to a strict descendant `q` is listed by
`read_dir`. -/
lemma mem_readDir_of_under {fs : FS} {d q : RPath} (hq : q ∈ allPaths fs)
    (h : strictUnder d q) {c : List Nat}
    (hc : q.comps[d.comps.length]? = some c) : c ∈ readDir fs d := by
  unfold readDir
  rw [List.mem_dedup]
  refine List.mem_filterMap.mpr ⟨q, hq, ?_⟩
  unfold childName
  rw [if_pos h, hc]

/-- Every `read_dir` child name comes from a strict descendant path. -/
lemma readDir_mem_inv {fs : FS} {d : RPath} {c : List Nat}
    (h : c ∈ readDir fs d) :
    ∃ q ∈ allPaths fs, strictUnder d q ∧ q.comps[d.comps.length]? = some c := by
  unfold readDir at h
  rw [List.mem_dedup] at h
  obtain ⟨q, hq, hcn⟩ := List.mem_filterMap.mp h
  unfold childName at hcn
  by_cases hu : strictUnder d q
  · rw [if_pos hu] at hcn
    exact ⟨q, hq, hu, hcn⟩
  · rw [if_neg hu] at hcn
    cases hcn

/-- Taking one more component of a strict descendant appends the child name. -/
lemma take_succ_of_getElem {α : Type} {l : List α} {n : Nat} {c : α}
    (h : l[n]? = some c) : l.take (n + 1) = l.take n ++ [c] := by
  rw [List.take_succ, h]
  rfl

/-- Resolution of the next step from `d` towards a descendant file `q`: the
child either is `q` itself (then a file and not a directory) or lies strictly
above `q` (then a directory). -/
lemma child_resolve {fs : FS} (hw : wfFS fs = true) {d q : RPath}
    {dta : FileData} (hqf : (q, dta) ∈ fs.files) (h : strictUnder d q)
    {c : List Nat} (hc : q.comps[d.comps.length]? = some c) :
    (childP d c = q ∧ isFileB fs (childP d c) = true ∧ ¬ isDirB fs (childP d c) = true)
    ∨ (strictUnder (childP d c) q ∧ isDirB fs (childP d c) = true) := by
  obtain ⟨habs, hlen, htake⟩ := h
  have hcomps : (childP d c).comps = q.comps.take (d.comps.length + 1) := by
    rw [take_succ_of_getElem hc, htake]
    rfl
  by_cases hfin : d.comps.length + 1 = q.comps.length
  · left
    have hqeq : childP d c = q := by
      have : (childP d c).comps = q.comps := by
        rw [hcomps, hfin, List.take_length]
      cases q
      cases d
      simp only [childP] at this ⊢
      simp only [childP, RPath.mk.injEq] at *
      exact ⟨habs, this⟩
    refine ⟨hqeq, ?_, ?_⟩
    · rw [hqeq]
      exact isFileB_of_mem hw hqf
    · rw [hqeq]
      exact wf_file_not_dir hw hqf
  · right
    have hlt : d.comps.length + 1 < q.comps.length := by
      have hle : d.comps.length + 1 ≤ q.comps.length := hlen
      omega
    have hchildlen : (childP d c).comps.length = d.comps.length + 1 := by
      rw [hcomps, List.length_take]
      omega
    constructor
    · refine ⟨habs, ?_, ?_⟩
      · omega
      · rw [hchildlen, hcomps]
    · have : isDirB fs { abs := q.abs, comps := q.comps.take (d.comps.length + 1) } = true :=
        wf_prefix_dir hw
          (by unfold allPaths
              exact List.mem_append.mpr (Or.inl (List.mem_map.mpr ⟨(q, dta), hqf, rfl⟩)))
          (by omega) hlt
      have hrepr : childP d c = { abs := q.abs, comps := q.comps.take (d.comps.length + 1) } := by
        cases d
        simp only [childP, RPath.mk.injEq] at hcomps ⊢
        exact ⟨habs, hcomps⟩
      rw [hrepr]
      exact this

/-!
## The specification mapping versus the harvest
-/

/-- Membership in the specification entries of a directory root. -/
lemma specUnder_mem_dir {fs : FS} {p : RPath} {rel : List (List Nat)}
    {kv : List Nat × List Nat} (hd : isDirB fs p = true) :
    kv ∈ specUnder fs p rel ↔
      ∃ qd ∈ fs.files, strictUnder p qd.1 ∧
        kv = (joinName (rel ++ qd.1.comps.drop p.comps.length), contentBytes (some qd.2)) := by
  unfold specUnder
  rw [if_pos hd, List.mem_filterMap]
  constructor
  · rintro ⟨qd, hm, hf⟩
    by_cases hu : strictUnder p qd.1
    · rw [if_pos hu] at hf
      exact ⟨qd, hm, hu, (Option.some.injEq _ _ |>.mp hf).symm⟩
    · rw [if_neg hu] at hf
      cases hf
  · rintro ⟨qd, hm, hu, rfl⟩
    exact ⟨qd, hm, by rw [if_pos hu]⟩

/-- The specification entries of a plain-file root. -/
lemma specUnder_file_eq {fs : FS} {p : RPath} {rel : List (List Nat)}
    (hd : ¬ isDirB fs p = true) (hf : isFileB fs p = true) :
    specUnder fs p rel = [(joinName rel, contentBytes (lookupFile fs p))] := by
  unfold specUnder
  rw [if_neg hd, if_pos hf]

/-- The specification entries of a nonexistent root. -/
lemma specUnder_skip_eq {fs : FS} {p : RPath} {rel : List (List Nat)}
    (hd : ¬ isDirB fs p = true) (hf : ¬ isFileB fs p = true) :
    specUnder fs p rel = [] := by
  unfold specUnder
  rw [if_neg hd, if_neg hf]

/-- An existing file has an entry in the file list. -/
lemma exists_of_isFileB {fs : FS} {p : RPath} (h : isFileB fs p = true) :
    ∃ dta, (p, dta) ∈ fs.files := by
  unfold isFileB lookupFile at h
  cases hfind : fs.files.find? (fun qd => qd.1 = p) with
  | none => rw [hfind] at h; cases h
  | some qd =>
    have hm := List.mem_of_find?_eq_some hfind
    have hp : qd.1 = p := by simpa using List.find?_some hfind
    refine ⟨qd.2, ?_⟩
    rw [← hp]
    exact hm

/-- Unfolding the harvest of a directory at a successor depth. -/
lemma harv_succ_dir {fs : FS} {p : RPath} {rel : List (List Nat)} {b : Nat}
    (hd : isDirB fs p = true) :
    harv fs (b + 1) (p, rel) =
      ((readDir fs p).reverse.map (fun c => harv fs b (childP p c, rel ++ [c]))).flatten := by
  unfold harv
  simp only [nodesB, hd, if_true]
  rw [List.filterMap_cons_none (by simp [fileEntry, hd])]
  rw [filterMap_flatten_eq, List.map_map]
  rfl

/-- Membership in a directory's harvest goes through one of its children. -/
lemma harv_mem_succ_dir {fs : FS} {p : RPath} {rel : List (List Nat)} {b : Nat}
    {kv : List Nat × List Nat} (hd : isDirB fs p = true) :
    kv ∈ harv fs (b + 1) (p, rel) ↔
      ∃ c ∈ readDir fs p, kv ∈ harv fs b (childP p c, rel ++ [c]) := by
  rw [harv_succ_dir hd]
  rw [List.mem_flatten]
  constructor
  · rintro ⟨l, hl, hkv⟩
    obtain ⟨c, hcm, rfl⟩ := List.mem_map.mp hl
    exact ⟨c, List.mem_reverse.mp hcm, hkv⟩
  · rintro ⟨c, hcm, hkv⟩
    exact ⟨harv fs b (childP p c, rel ++ [c]),
      List.mem_map.mpr ⟨c, List.mem_reverse.mpr hcm, rfl⟩, hkv⟩

/-- Extract the indexed element from an equation about `take`. -/
lemma getElem_of_take_eq {l pre : List (List Nat)} {c : List Nat}
    (h : l.take (pre.length + 1) = pre ++ [c]) (hlt : pre.length < l.length) :
    l[pre.length]? = some c := by
  have h2 := congrArg (fun t => t[pre.length]?) h
  simp only at h2
  rw [List.getElem?_take, if_pos (by omega)] at h2
  rw [h2, List.getElem?_append, if_neg (by omega)]
  simp

/-- A strict descendant of a child is a strict descendant of the parent, and
passes through the child's name. -/
lemma strictUnder_of_child {p : RPath} {c : List Nat} {q : RPath}
    (h : strictUnder (childP p c) q) :
    strictUnder p q ∧ q.comps[p.comps.length]? = some c := by
  obtain ⟨habs, hlen, htake⟩ := h
  have hlen2 : p.comps.length + 1 ≤ q.comps.length := by
    have : p.comps.length + 1 < q.comps.length := by simpa [childP] using hlen
    omega
  have htake2 : q.comps.take (p.comps.length + 1) = p.comps ++ [c] := by
    simpa [childP] using htake
  have hc : q.comps[p.comps.length]? = some c := getElem_of_take_eq htake2 (by omega)
  refine ⟨⟨by simpa [childP] using habs, by omega, ?_⟩, hc⟩
  have h3 := congrArg (List.take p.comps.length) htake2
  rw [List.take_take, min_eq_left (by omega)] at h3
  rw [h3, List.take_left]

/-- Every child is a strict descendant of its parent. -/
lemma strictUnder_childP {p : RPath} {c : List Nat} : strictUnder p (childP p c) := by
  refine ⟨rfl, by simp [childP], ?_⟩
  show (p.comps ++ [c]).take p.comps.length = p.comps
  rw [List.take_append_of_le_length (by omega), List.take_length]

/-- Dropping the parent's length from a child leaves the child's name. -/
lemma drop_of_child_eq {p : RPath} {c : List Nat} :
    (childP p c).comps.drop p.comps.length = [c] := by
  show (p.comps ++ [c]).drop p.comps.length = [c]
  rw [List.drop_left]

/-- An indexed element splits a `drop` into a cons. -/
lemma drop_eq_cons_of_getElem {α : Type} {l : List α} {n : Nat} {c : α}
    (h : l[n]? = some c) : l.drop n = c :: l.drop (n + 1) := by
  have hn : n < l.length := by
    by_contra hc
    rw [List.getElem?_eq_none (by omega)] at h
    cases h
  rw [List.drop_eq_getElem_cons hn]
  congr 1
  rw [List.getElem?_eq_getElem hn] at h
  exact Option.some.injEq _ _ |>.mp h

/-- A directory's specification entries are exactly the union of its
children's specification entries. -/
lemma specUnder_dir_decomp {fs : FS} (hw : wfFS fs = true) {p : RPath}
    {rel : List (List Nat)} (hd : isDirB fs p = true) (kv : List Nat × List Nat) :
    (∃ c ∈ readDir fs p, kv ∈ specUnder fs (childP p c) (rel ++ [c])) ↔
      kv ∈ specUnder fs p rel := by
  constructor
  · rintro ⟨c, hcm, hkv⟩
    by_cases hcd : isDirB fs (childP p c) = true
    · rw [specUnder_mem_dir hcd] at hkv
      obtain ⟨⟨q, dta⟩, hm, hu, rfl⟩ := hkv
      obtain ⟨hu2, hc⟩ := strictUnder_of_child hu
      rw [specUnder_mem_dir hd]
      refine ⟨(q, dta), hm, hu2, ?_⟩
      have hchildlen : (childP p c).comps.length = p.comps.length + 1 := by
        simp [childP]
      rw [hchildlen, drop_eq_cons_of_getElem hc]
      simp [List.append_assoc]
    · by_cases hcf : isFileB fs (childP p c) = true
      · rw [specUnder_file_eq hcd hcf] at hkv
        have hkv2 : kv = (joinName (rel ++ [c]), contentBytes (lookupFile fs (childP p c))) := by
          simpa using hkv
        obtain ⟨dta, hmem⟩ := exists_of_isFileB hcf
        rw [specUnder_mem_dir hd]
        refine ⟨(childP p c, dta), hmem, strictUnder_childP, ?_⟩
        rw [hkv2, lookupFile_of_mem hw hmem, drop_of_child_eq]
      · rw [specUnder_skip_eq hcd hcf] at hkv
        cases hkv
  · intro hkv
    rw [specUnder_mem_dir hd] at hkv
    obtain ⟨⟨q, dta⟩, hm, hu, rfl⟩ := hkv
    have hlt : p.comps.length < q.comps.length := hu.2.1
    have hc : q.comps[p.comps.length]? = some (q.comps.get ⟨p.comps.length, hlt⟩) := by
      rw [List.getElem?_eq_getElem hlt]
      rfl
    have hq_all : q ∈ allPaths fs := by
      unfold allPaths
      exact List.mem_append.mpr (Or.inl (List.mem_map.mpr ⟨(q, dta), hm, rfl⟩))
    refine ⟨q.comps.get ⟨p.comps.length, hlt⟩, mem_readDir_of_under hq_all hu hc, ?_⟩
    rcases child_resolve hw hm hu hc with ⟨heq, hcf, hcd⟩ | ⟨hu2, hcd⟩
    · rw [specUnder_file_eq hcd hcf]
      have hqlen : q.comps.length = p.comps.length + 1 := by
        have h5 := congrArg (fun r => r.comps.length) heq
        have h6 : p.comps.length + 1 = q.comps.length := by
          simpa [childP] using h5
        omega
      have hdrop : q.comps.drop p.comps.length = [q.comps.get ⟨p.comps.length, hlt⟩] := by
        rw [drop_eq_cons_of_getElem hc, List.drop_eq_nil_of_le (by omega)]
      rw [hdrop, heq, lookupFile_of_mem hw hm]
      simp
    · rw [specUnder_mem_dir hcd]
      refine ⟨(q, dta), hm, hu2, ?_⟩
      have hchildlen :
          (childP p (q.comps.get ⟨p.comps.length, hlt⟩)).comps.length
            = p.comps.length + 1 := by
        simp [childP]
      rw [hchildlen, drop_eq_cons_of_getElem hc]
      simp [List.append_assoc]

/-- On a well-formed filesystem, the entries harvested by the builder's
traversal from a root are exactly the specification's entries for that root
(as sets), once the depth bound exceeds the filesystem depth. -/
lemma harv_mem_iff {fs : FS} (hw : wfFS fs = true) :
    ∀ (b : Nat) (p : RPath) (rel : List (List Nat)),
      maxLenFS fs < p.comps.length + b →
      ∀ kv, (kv ∈ harv fs b (p, rel) ↔ kv ∈ specUnder fs p rel) := by
  intro b
  induction b with
  | zero =>
    intro p rel hb kv
    have hnof : ¬ isFileB fs p = true := by
      intro hf
      obtain ⟨dta, hm⟩ := exists_of_isFileB hf
      have h7 : p.comps.length ≤ maxLenFS fs := file_le_maxLen hm
      omega
    by_cases hd : isDirB fs p = true
    · constructor
      · intro hkv
        exfalso
        unfold harv nodesB at hkv
        simp [fileEntry, hd] at hkv
      · intro hkv
        exfalso
        rw [specUnder_mem_dir hd] at hkv
        obtain ⟨qd, hm, hu, -⟩ := hkv
        have h7 : qd.1.comps.length ≤ maxLenFS fs := file_le_maxLen hm
        have h8 := hu.2.1
        omega
    · constructor
      · intro hkv
        exfalso
        unfold harv at hkv
        rw [nodesB_nonDir hd] at hkv
        simp [fileEntry, hd, hnof] at hkv
      · intro hkv
        rw [specUnder_skip_eq hd hnof] at hkv
        cases hkv
  | succ b0 ih =>
    intro p rel hb kv
    by_cases hd : isDirB fs p = true
    · rw [harv_mem_succ_dir hd]
      rw [← specUnder_dir_decomp hw hd kv]
      constructor
      · rintro ⟨c, hcm, hkv⟩
        refine ⟨c, hcm, ?_⟩
        rw [← ih (childP p c) (rel ++ [c])
              (by simp only [childP, List.length_append, List.length_cons,
                    List.length_nil]; omega) kv]
        exact hkv
      · rintro ⟨c, hcm, hkv⟩
        refine ⟨c, hcm, ?_⟩
        rw [ih (childP p c) (rel ++ [c])
              (by simp only [childP, List.length_append, List.length_cons,
                    List.length_nil]; omega) kv]
        exact hkv
    · by_cases hf : isFileB fs p = true
      · rw [harv_file _ hd hf, specUnder_file_eq hd hf]
      · rw [harv_skip _ hd hf, specUnder_skip_eq hd hf]

/-!
## Reading: the shared mapping
-/

/-- Looking up the key just inserted yields the inserted value. -/
lemma lookupM_insertRep_self :
    ∀ (m : List (List Nat × List Nat)) (k v : List Nat),
      lookupM (insertRep m k v) k = some v := by
  intro m
  induction m with
  | nil => intro k v; simp [insertRep, lookupM, List.find?]
  | cons e t ih =>
    intro k v
    by_cases h : e.1 = k
    · simp [insertRep, h, lookupM, List.find?]
    · rw [insertRep, if_neg h]
      unfold lookupM
      rw [List.find?_cons_of_neg _ (by simpa using h)]
      exact ih k v

/-- Inserting one key leaves other keys' lookups unchanged. -/
lemma lookupM_insertRep_ne :
    ∀ (m : List (List Nat × List Nat)) (k v k2 : List Nat), ¬ k2 = k →
      lookupM (insertRep m k v) k2 = lookupM m k2 := by
  intro m
  induction m with
  | nil =>
    intro k v k2 h
    show lookupM [(k, v)] k2 = lookupM [] k2
    unfold lookupM
    rw [List.find?_cons_of_neg _ (by simp; exact fun e => h e.symm)]
  | cons e t ih =>
    intro k v k2 h
    by_cases he : e.1 = k
    · rw [insertRep, if_pos he]
      unfold lookupM
      rw [List.find?_cons_of_neg _ (by simp; exact fun e2 => h e2.symm)]
      rw [List.find?_cons_of_neg _ (by simp; rw [he]; exact fun e2 => h e2.symm)]
    · rw [insertRep, if_neg he]
      by_cases he2 : e.1 = k2
      · unfold lookupM
        rw [List.find?_cons_of_pos _ (by simpa using he2),
          List.find?_cons_of_pos _ (by simpa using he2)]
      · unfold lookupM
        rw [List.find?_cons_of_neg _ (by simpa using he2),
          List.find?_cons_of_neg _ (by simpa using he2)]
        exact ih k v k2 h

/-- A successful worker loop decodes every scheduled ordinal and computes the
insertion fold. -/
lemma readLoop_eq_fold {es : List ZEntry} {cred : Option (List Nat)} :
    ∀ (sched : List Nat) (acc m : List (List Nat × List Nat)),
      readLoop es cred sched acc = .ok m →
      (∀ i ∈ sched, toIns es cred i ≠ none) ∧
        m = sched.foldl (stepIns es cred) acc := by
  intro sched
  induction sched with
  | nil =>
    intro acc m h
    simp only [readLoop] at h
    exact ⟨by simp, by simpa using (Except.ok.injEq _ _ |>.mp h).symm⟩
  | cons i rest ih =>
    intro acc m h
    cases hei : es[i]? with
    | none => simp [readLoop, hei] at h
    | some e =>
      cases hdec : decodeEntry e cred with
      | error err => simp [readLoop, hei, hdec] at h
      | ok b =>
        simp only [readLoop, hei, hdec] at h
        obtain ⟨h1, h2⟩ := ih _ _ h
        refine ⟨?_, ?_⟩
        · intro j hj
          rcases List.mem_cons.mp hj with rfl | hj2
          · simp [toIns, hei, hdec]
          · exact h1 j hj2
        · rw [h2, List.foldl_cons]
          congr 1
          simp [stepIns, toIns, hei, hdec]

/-- If every scheduled ordinal decodes, the worker loop succeeds with the
insertion fold. -/
lemma readLoop_ok_of_all {es : List ZEntry} {cred : Option (List Nat)} :
    ∀ (sched : List Nat) (acc : List (List Nat × List Nat)),
      (∀ i ∈ sched, toIns es cred i ≠ none) →
      readLoop es cred sched acc = .ok (sched.foldl (stepIns es cred) acc) := by
  intro sched
  induction sched with
  | nil => intro acc _; simp [readLoop]
  | cons i rest ih =>
    intro acc hall
    have hi := hall i (List.mem_cons_self i rest)
    cases hei : es[i]? with
    | none => exact absurd (by simp [toIns, hei]) hi
    | some e =>
      cases hdec : decodeEntry e cred with
      | error err => exact absurd (by simp [toIns, hei, hdec]) hi
      | ok b =>
        simp only [readLoop, hei, hdec, List.foldl_cons]
        have hstep : stepIns es cred acc i = insertRep acc e.name b := by
          simp [stepIns, toIns, hei, hdec]
        rw [hstep]
        exact ih _ (fun j hj => hall j (List.mem_cons_of_mem _ hj))

/-- A scheduled failing ordinal makes the worker loop fail. -/
lemma readLoop_fails {es : List ZEntry} {cred : Option (List Nat)} {i : Nat}
    {e : ZEntry} {err : ZipError}
    (hei : es[i]? = some e) (hdec : decodeEntry e cred = .error err) :
    ∀ (sched : List Nat) (acc : List (List Nat × List Nat)), i ∈ sched →
      ∃ err2, readLoop es cred sched acc = .error err2 := by
  intro sched
  induction sched with
  | nil => intro acc h; cases h
  | cons j rest ih =>
    intro acc hmem
    by_cases hj : j = i
    · subst hj
      exact ⟨err, by simp [readLoop, hei, hdec]⟩
    · rcases List.mem_cons.mp hmem with h1 | h2
      · exact absurd h1.symm hj
      · cases hej : es[j]? with
        | none => exact ⟨.invalidEntryIndexError, by simp [readLoop, hej]⟩
        | some e2 =>
          cases hdec2 : decodeEntry e2 cred with
          | error err3 => exact ⟨err3, by simp [readLoop, hej, hdec2]⟩
          | ok b2 =>
            obtain ⟨err2, h4⟩ := ih (insertRep acc e2.name b2) h2
            refine ⟨err2, ?_⟩
            simp only [readLoop, hej, hdec2]
            exact h4

/-- Lookup after the insertion fold: the last successful insert for the key
wins, falling back to the accumulator. -/
lemma lookupM_foldl_stepIns {es : List ZEntry} {cred : Option (List Nat)} :
    ∀ (sched : List Nat) (acc : List (List Nat × List Nat)) (k : List Nat),
      lookupM (sched.foldl (stepIns es cred) acc) k =
        match (sched.reverse.filterMap (toIns es cred)).find? (fun kv => kv.1 = k) with
        | some kv => some kv.2
        | none => lookupM acc k := by
  intro sched
  induction sched with
  | nil => intro acc k; simp
  | cons i rest ih =>
    intro acc k
    rw [List.foldl_cons, ih]
    rw [List.reverse_cons, List.filterMap_append, List.find?_append]
    cases hfind : (rest.reverse.filterMap (toIns es cred)).find? (fun kv => kv.1 = k) with
    | some kv => simp [Option.or]
    | none =>
      simp only [Option.none_or]
      cases hti : toIns es cred i with
      | none => simp [stepIns, hti]
      | some kv =>
        simp only [List.filterMap_cons, hti, List.filterMap_nil]
        by_cases hk : kv.1 = k
        · rw [List.find?_cons_of_pos _ (by simpa using hk)]
          rw [stepIns, hti]
          rw [← hk, lookupM_insertRep_self]
        · rw [List.find?_cons_of_neg _ (by simpa using hk)]
          rw [stepIns, hti]
          simp only [List.find?_nil]
          exact lookupM_insertRep_ne acc kv.1 kv.2 k (fun e => hk e.symm)

/-- Membership in the fold's insert stream. -/
lemma mem_filterMap_toIns {es : List ZEntry} {cred : Option (List Nat)}
    {sched : List Nat} {kv : List Nat × List Nat} :
    kv ∈ sched.reverse.filterMap (toIns es cred) ↔
      ∃ i ∈ sched, toIns es cred i = some kv := by
  rw [List.mem_filterMap]
  constructor
  · rintro ⟨i, hi, h⟩
    exact ⟨i, List.mem_reverse.mp hi, h⟩
  · rintro ⟨i, hi, h⟩
    exact ⟨i, List.mem_reverse.mpr hi, h⟩

/-- If some scheduled worker inserts `(k, v)` and every scheduled insert at
key `k` carries the same value `v`, the final mapping sends `k` to `v`. -/
lemma read_lookup_of_unique {es : List ZEntry} {cred : Option (List Nat)}
    {sched : List Nat} {m : List (List Nat × List Nat)} {k v : List Nat}
    (hok : readLoop es cred sched [] = .ok m)
    (hex : ∃ i ∈ sched, toIns es cred i = some (k, v))
    (huniq : ∀ i ∈ sched, ∀ v2, toIns es cred i = some (k, v2) → v2 = v) :
    lookupM m k = some v := by
  obtain ⟨-, rfl⟩ := readLoop_eq_fold sched [] m hok
  rw [lookupM_foldl_stepIns]
  cases hfind : (sched.reverse.filterMap (toIns es cred)).find? (fun kv => kv.1 = k) with
  | none =>
    exfalso
    obtain ⟨i, hi, hti⟩ := hex
    have hm2 : (k, v) ∈ sched.reverse.filterMap (toIns es cred) :=
      mem_filterMap_toIns.mpr ⟨i, hi, hti⟩
    have := List.find?_eq_none.mp hfind _ hm2
    simp at this
  | some kv2 =>
    have hm2 := List.mem_of_find?_eq_some hfind
    have hp2 : kv2.1 = k := by simpa using List.find?_some hfind
    obtain ⟨i2, hi2, hti2⟩ := mem_filterMap_toIns.mp hm2
    obtain ⟨a, b⟩ := kv2
    simp only at hp2
    subst hp2
    have hv2 : b = v := huniq i2 hi2 b hti2
    simp [hv2]

/-- If no scheduled worker inserts at key `k`, the final mapping omits `k`. -/
lemma read_lookup_none {es : List ZEntry} {cred : Option (List Nat)}
    {sched : List Nat} {m : List (List Nat × List Nat)} {k : List Nat}
    (hok : readLoop es cred sched [] = .ok m)
    (hnone : ∀ i ∈ sched, ∀ v2, ¬ toIns es cred i = some (k, v2)) :
    lookupM m k = none := by
  obtain ⟨-, rfl⟩ := readLoop_eq_fold sched [] m hok
  rw [lookupM_foldl_stepIns]
  cases hfind : (sched.reverse.filterMap (toIns es cred)).find? (fun kv => kv.1 = k) with
  | none => simp [lookupM, List.find?]
  | some kv2 =>
    exfalso
    have hm2 := List.mem_of_find?_eq_some hfind
    have hp2 : kv2.1 = k := by simpa using List.find?_some hfind
    obtain ⟨i2, hi2, hti2⟩ := mem_filterMap_toIns.mp hm2
    obtain ⟨a, b⟩ := kv2
    simp only at hp2
    subst hp2
    exact hnone i2 hi2 b hti2

/-!
## Effects of creating the output file
-/

/-- `setFile` never changes the directory set. -/
lemma setFile_dirs (fs : FS) (p : RPath) (d : FileData) :
    (setFile fs p d).dirs = fs.dirs := by
  unfold setFile
  split <;> rfl

/-- `setFile` never changes directory existence. -/
lemma isDirB_setFile (fs : FS) (p q : RPath) (d : FileData) :
    isDirB (setFile fs p d) q = isDirB fs q := by
  unfold isDirB
  rw [setFile_dirs]

/-- Replacing the entry at `p` makes `find?` at `p` yield the new entry. -/
lemma find_map_replace :
    ∀ (l : List (RPath × FileData)) (p : RPath) (d : FileData),
      (l.find? (fun qd => qd.1 = p)).isSome = true →
      (l.map (fun qd => if qd.1 = p then (p, d) else qd)).find? (fun qd => qd.1 = p)
        = some (p, d) := by
  intro l
  induction l with
  | nil => intro p d h; simp [List.find?] at h
  | cons a t ih =>
    intro p d h
    by_cases ha : a.1 = p
    · rw [List.map_cons, if_pos ha]
      rw [List.find?_cons_of_pos _ (by simp)]
    · rw [List.map_cons, if_neg ha]
      rw [List.find?_cons_of_neg _ (by simpa using ha)]
      apply ih
      rw [List.find?_cons_of_neg _ (by simpa using ha)] at h
      exact h

/-- Replacing the entry at `p` leaves `find?` at other keys unchanged. -/
lemma find_map_replace_ne {p q : RPath} {d : FileData} (h : ¬ q = p) :
    ∀ (l : List (RPath × FileData)),
      (l.map (fun qd => if qd.1 = p then (p, d) else qd)).find? (fun qd => qd.1 = q)
        = l.find? (fun qd => qd.1 = q) := by
  intro l
  induction l with
  | nil => rfl
  | cons a t ih =>
    by_cases ha : a.1 = p
    · rw [List.map_cons, if_pos ha]
      rw [List.find?_cons_of_neg _ (by simp; exact fun e => h e.symm)]
      rw [List.find?_cons_of_neg _ (by simp; rw [ha]; exact fun e => h e.symm)]
      exact ih
    · rw [List.map_cons, if_neg ha]
      by_cases haq : a.1 = q
      · rw [List.find?_cons_of_pos _ (by simpa using haq),
          List.find?_cons_of_pos _ (by simpa using haq)]
      · rw [List.find?_cons_of_neg _ (by simpa using haq),
          List.find?_cons_of_neg _ (by simpa using haq)]
        exact ih

/-- After `setFile`, the written path holds the written data. -/
lemma lookupFile_setFile_self (fs : FS) (p : RPath) (d : FileData) :
    lookupFile (setFile fs p d) p = some d := by
  unfold setFile
  by_cases h : (fs.files.find? (fun qd => qd.1 = p)).isSome = true
  · rw [if_pos h]
    unfold lookupFile
    rw [find_map_replace fs.files p d h]
    rfl
  · rw [if_neg h]
    unfold lookupFile
    rw [List.find?_append]
    have hnone : fs.files.find? (fun qd => qd.1 = p) = none := by
      cases hf : fs.files.find? (fun qd => qd.1 = p) with
      | none => rfl
      | some x => rw [hf] at h; simp at h
    rw [hnone]
    simp [List.find?]

/-- After `setFile`, every other path is unchanged. -/
lemma lookupFile_setFile_ne (fs : FS) {p q : RPath} (d : FileData) (h : ¬ q = p) :
    lookupFile (setFile fs p d) q = lookupFile fs q := by
  unfold setFile
  by_cases hs : (fs.files.find? (fun qd => qd.1 = p)).isSome = true
  · rw [if_pos hs]
    unfold lookupFile
    rw [find_map_replace_ne h]
  · rw [if_neg hs]
    unfold lookupFile
    rw [List.find?_append]
    cases hf : fs.files.find? (fun qd => qd.1 = q) with
    | some x => simp
    | none =>
      simp only [Option.none_or]
      rw [List.find?_cons_of_neg _ (by simp; exact fun e => h e.symm)]
      rfl

/-- After `setFile`, file existence at other paths is unchanged. -/
lemma isFileB_setFile_ne (fs : FS) {p q : RPath} (d : FileData) (h : ¬ q = p) :
    isFileB (setFile fs p d) q = isFileB fs q := by
  unfold isFileB
  rw [lookupFile_setFile_ne fs d h]

/-- Creating the fresh output file appends it to the file list. -/
lemma setFile_files_fresh {fs : FS} {p : RPath} {d : FileData}
    (h : pathExistsB fs p = false) :
    (setFile fs p d).files = fs.files ++ [(p, d)] := by
  unfold setFile
  have hnon : ¬ (fs.files.find? (fun qd => qd.1 = p)).isSome = true := by
    intro hc
    unfold pathExistsB isFileB lookupFile isDirB at h
    cases hf : fs.files.find? (fun qd => qd.1 = p) with
    | none => rw [hf] at hc; simp at hc
    | some x =>
      rw [hf] at h
      simp at h
  rw [if_neg hnon]

/-- Provided the traversal root neither equals the fresh output path nor lies
above it, the specification entries are the same before and after the output
file is created. -/
lemma specUnder_setFile_fresh {fs : FS} {outP : RPath} {dz : FileData}
    (hfresh : pathExistsB fs outP = false) {p : RPath} {rel : List (List Nat)}
    (hne : ¬ p = outP) (hnu : ¬ strictUnder p outP) :
    specUnder (setFile fs outP dz) p rel = specUnder fs p rel := by
  unfold specUnder
  rw [isDirB_setFile]
  by_cases hd : isDirB fs p = true
  · rw [if_pos hd, if_pos hd]
    rw [setFile_files_fresh hfresh]
    rw [List.filterMap_append]
    have hz : List.filterMap (fun qd =>
        if strictUnder p qd.1 then
          some (joinName (rel ++ qd.1.comps.drop p.comps.length), contentBytes (some qd.2))
        else none) [(outP, dz)] = [] := by
      simp [hnu]
    rw [hz, List.append_nil]
  · rw [if_neg hd, if_neg hd]
    rw [isFileB_setFile_ne fs dz hne]
    by_cases hf : isFileB fs p = true
    · rw [if_pos hf, if_pos hf, lookupFile_setFile_ne fs dz hne]
    · rw [if_neg hf, if_neg hf]

/-!
## Assembling the list-builder round trip
-/

/-- Characterization of the base-name pairs built by the first loop of
`create_zip_from_files`. -/
lemma initPairs_mem :
    ∀ {inputs : List RPath} {prs : List (RPath × List (List Nat))},
      initPairs inputs = some prs →
      ∀ pr, (pr ∈ prs ↔ ∃ p ∈ inputs, ∃ b, fileName p = some b ∧ pr = (p, [b])) := by
  intro inputs
  induction inputs with
  | nil =>
    intro prs h pr
    simp only [initPairs] at h
    rw [← Option.some.injEq _ _ |>.mp h]
    simp
  | cons p rest ih =>
    intro prs h pr
    simp only [initPairs] at h
    cases hb : fileName p with
    | none => rw [hb] at h; cases h
    | some b =>
      rw [hb] at h
      cases hrest : initPairs rest with
      | none => rw [hrest] at h; cases h
      | some prs2 =>
        rw [hrest] at h
        simp only [Option.map_some] at h
        rw [← Option.some.injEq _ _ |>.mp h]
        constructor
        · intro hm
          rcases List.mem_cons.mp hm with rfl | hm2
          · exact ⟨p, List.mem_cons_self _ _, b, hb, rfl⟩
          · obtain ⟨q, hq, b2, hb2, rfl⟩ := (ih hrest pr).mp hm2
            exact ⟨q, List.mem_cons_of_mem _ hq, b2, hb2, rfl⟩
        · rintro ⟨q, hq, b2, hb2, rfl⟩
          rcases List.mem_cons.mp hq with rfl | hq2
          · rw [hb] at hb2
            rw [Option.some.injEq _ _ |>.mp hb2]
            exact List.mem_cons_self _ _
          · exact List.mem_cons_of_mem _ ((ih hrest _).mpr ⟨q, hq2, b2, hb2, rfl⟩)

/-- Membership in the specification mapping of an input list. -/
lemma specList_mem {fs : FS} {inputs : List RPath} {kv : List Nat × List Nat} :
    kv ∈ specList fs inputs ↔ ∃ p ∈ inputs, kv ∈ specFor fs p := by
  unfold specList
  rw [List.mem_flatten]
  constructor
  · rintro ⟨l, hl, hkv⟩
    obtain ⟨p, hp, rfl⟩ := List.mem_map.mp hl
    exact ⟨p, hp, hkv⟩
  · rintro ⟨p, hp, hkv⟩
    exact ⟨specFor fs p, List.mem_map.mpr ⟨p, hp, rfl⟩, hkv⟩

/-- The entries the builder's work list will write are exactly the
specification's entries for the inputs, as sets of pairs. -/
lemma stackHarv_spec_mem {fs : FS} {outP : RPath} {inputs : List RPath}
    {prs : List (RPath × List (List Nat))}
    (hfresh : pathExistsB fs outP = false)
    (hwf : wfFS (setFile fs outP (.zip [])) = true)
    (hsep : ∀ p ∈ inputs, ¬ p = outP ∧ ¬ strictUnder p outP)
    (hprs : initPairs inputs = some prs) :
    ∀ kv, (kv ∈ stackHarv (setFile fs outP (.zip [])) prs.reverse ↔
      kv ∈ specList fs inputs) := by
  intro kv
  unfold stackHarv
  rw [List.mem_flatten]
  constructor
  · rintro ⟨l, hl, hkv⟩
    obtain ⟨pr, hpr, rfl⟩ := List.mem_map.mp hl
    obtain ⟨p, hp, b, hb, rfl⟩ := (initPairs_mem hprs pr).mp (List.mem_reverse.mp hpr)
    rw [harv_mem_iff hwf (topB (setFile fs outP (.zip []))) p [b]
          (by unfold topB; omega) kv] at hkv
    rw [specUnder_setFile_fresh hfresh (hsep p hp).1 (hsep p hp).2] at hkv
    refine specList_mem.mpr ⟨p, hp, ?_⟩
    unfold specFor
    rw [hb]
    exact hkv
  · intro hkv
    obtain ⟨p, hp, hkv2⟩ := specList_mem.mp hkv
    unfold specFor at hkv2
    cases hb : fileName p with
    | none => rw [hb] at hkv2; cases hkv2
    | some b =>
      rw [hb] at hkv2
      refine ⟨harv (setFile fs outP (.zip [])) (topB (setFile fs outP (.zip []))) (p, [b]),
        List.mem_map.mpr ⟨(p, [b]),
          List.mem_reverse.mpr ((initPairs_mem hprs _).mpr ⟨p, hp, b, hb, rfl⟩), rfl⟩, ?_⟩
      have hkv3 : kv ∈ specUnder fs p [b] := by
        simpa using hkv2
      rw [harv_mem_iff hwf (topB (setFile fs outP (.zip []))) p [b]
          (by unfold topB; omega) kv]
      rw [specUnder_setFile_fresh hfresh (hsep p hp).1 (hsep p hp).2]
      exact hkv3

/-- A successful mapping lookup exhibits a member. -/
lemma lookupM_some_mem {l : List (List Nat × List Nat)} {k v : List Nat}
    (h : lookupM l k = some v) : (k, v) ∈ l := by
  unfold lookupM at h
  cases hf : l.find? (fun e => e.1 = k) with
  | none => rw [hf] at h; cases h
  | some kv =>
    rw [hf] at h
    have hm := List.mem_of_find?_eq_some hf
    have hp : kv.1 = k := by simpa using List.find?_some hf
    obtain ⟨a, b⟩ := kv
    simp only at hp
    subst hp
    have hv : b = v := by simpa using h
    rw [← hv]
    exact hm

/-- A failing mapping lookup means the key is absent. -/
lemma lookupM_none_iff {l : List (List Nat × List Nat)} {k : List Nat} :
    lookupM l k = none ↔ ∀ kv ∈ l, ¬ kv.1 = k := by
  unfold lookupM
  constructor
  · intro h kv hm
    cases hf : l.find? (fun e => e.1 = k) with
    | none =>
      intro he
      have := List.find?_eq_none.mp hf kv hm
      simp [he] at this
    | some kv2 => rw [hf] at h; cases h
  · intro h
    rw [List.find?_eq_none.mpr (by intro x hx; simpa using h x hx)]
    rfl

/-- In a mapping with distinct keys, the value at a key is unique. -/
lemma spec_val_unique {l : List (List Nat × List Nat)}
    (hnd : (l.map Prod.fst).Nodup) {k v v2 : List Nat}
    (h1 : (k, v) ∈ l) (h2 : (k, v2) ∈ l) : v2 = v := by
  have heq := List.inj_on_of_nodup_map hnd h2 h1 rfl
  exact congrArg Prod.snd heq

/-- Reading a builder-written archive: the worker insertion for ordinal `i` is
exactly the `i`-th written pair. -/
lemma toIns_mapZ (entries : List (List Nat × List Nat)) (i : Nat) :
    toIns (entries.map (fun e => (⟨e.1, e.2, none⟩ : ZEntry))) none i = entries[i]? := by
  unfold toIns
  rw [List.getElem?_map]
  cases entries[i]? with
  | none => rfl
  | some e => simp [decodeEntry]

/-- Claim C3 round-trip core: under the amended hypotheses, building the
archive from the inputs and reading it back agrees with the specification's
mapping at every key. -/
lemma c3_core
    (fs : FS) (outP : RPath) (inputs : List RPath) (fuel : Nat)
    (prs : List (RPath × List (List Nat)))
    (hfresh : pathExistsB fs outP = false)
    (hwf : wfFS (setFile fs outP (FileData.zip [])) = true)
    (hsep : ∀ p ∈ inputs, ¬ p = outP ∧ ¬ strictUnder p outP)
    (hprs : initPairs inputs = some prs)
    (hfuel : stackCost (setFile fs outP (FileData.zip [])) prs.reverse ≤ fuel)
    (hvalid : ∀ kv ∈ specList fs inputs, isValidUtf8 kv.1 = true)
    (hnodup : ((specList fs inputs).map Prod.fst).Nodup) :
    (create_zip_from_files fs outP inputs fuel).1 = BuildOut.ok ∧
    ∃ m, read_zip_contents_into_buffer (create_zip_from_files fs outP inputs fuel).2 outP
          none (List.range (archLen (create_zip_from_files fs outP inputs fuel).2 outP))
        = .ok m ∧
      ∀ k, lookupM m k = lookupM (specList fs inputs) k := by
  have hcond : ¬ pathExistsB fs outP = true := by rw [hfresh]; simp
  set fs1 := setFile fs outP (FileData.zip []) with hfs1
  set entries := stackHarv fs1 prs.reverse with hentries
  have hloop : buildLoop fs1 fuel prs.reverse [] = (.ok, entries) := by
    rw [buildLoop_ok fuel prs.reverse [] hfuel
          (by intro e he
              exact hvalid e ((stackHarv_spec_mem hfresh hwf hsep hprs e).mp he))]
    rw [List.nil_append]
  have hcreate : create_zip_from_files fs outP inputs fuel
      = (BuildOut.ok, setFile fs1 outP
          (.zip (entries.map (fun e => ⟨e.1, e.2, none⟩)))) := by
    unfold create_zip_from_files
    rw [if_neg hcond, hprs]
    simp only
    rw [← hfs1, hloop]
  rw [hcreate]
  refine ⟨rfl, ?_⟩
  set harvZ := entries.map (fun e => (⟨e.1, e.2, none⟩ : ZEntry)) with hharvZ
  have hlook : lookupFile (setFile fs1 outP (.zip harvZ)) outP = some (.zip harvZ) :=
    lookupFile_setFile_self fs1 outP (.zip harvZ)
  have harch : archLen (setFile fs1 outP (.zip harvZ)) outP = entries.length := by
    unfold archLen
    rw [hlook]
    simp [hharvZ]
  have hall : ∀ i ∈ List.range entries.length, toIns harvZ none i ≠ none := by
    intro i hi
    rw [toIns_mapZ]
    cases hg : entries[i]? with
    | none =>
      exfalso
      rw [List.getElem?_eq_none_iff] at hg
      rw [List.mem_range] at hi
      omega
    | some e => simp
  have hok : readLoop harvZ none (List.range entries.length) []
      = .ok ((List.range entries.length).foldl (stepIns harvZ none) []) :=
    readLoop_ok_of_all _ _ hall
  have hread : read_zip_contents_into_buffer (setFile fs1 outP (.zip harvZ)) outP none
      (List.range (archLen (setFile fs1 outP (.zip harvZ)) outP))
      = .ok ((List.range entries.length).foldl (stepIns harvZ none) []) := by
    unfold read_zip_contents_into_buffer
    rw [hlook, harch]
    exact hok
  refine ⟨_, hread, ?_⟩
  intro k
  have hmem : ∀ kv, kv ∈ entries ↔ kv ∈ specList fs inputs := by
    intro kv
    exact stackHarv_spec_mem hfresh hwf hsep hprs kv
  cases hspec : lookupM (specList fs inputs) k with
  | some v =>
    have hin : (k, v) ∈ specList fs inputs := lookupM_some_mem hspec
    have hin2 : (k, v) ∈ entries := (hmem (k, v)).mpr hin
    obtain ⟨i, hgi⟩ := List.mem_iff_getElem?.mp hin2
    have hilt : i < entries.length := by
      obtain ⟨h9, -⟩ := List.getElem?_eq_some.mp hgi
      exact h9
    apply read_lookup_of_unique hok
    · exact ⟨i, by rw [List.mem_range]; exact hilt, by rw [toIns_mapZ]; exact hgi⟩
    · intro j hj v2 htj
      rw [toIns_mapZ] at htj
      have hin3 : (k, v2) ∈ entries := List.mem_iff_getElem?.mpr ⟨j, htj⟩
      exact spec_val_unique hnodup hin ((hmem (k, v2)).mp hin3)
  | none =>
    apply read_lookup_none hok
    intro i hi v2 hti
    rw [toIns_mapZ] at hti
    have hin3 : (k, v2) ∈ entries := List.mem_iff_getElem?.mpr ⟨i, hti⟩
    exact lookupM_none_iff.mp hspec (k, v2) ((hmem (k, v2)).mp hin3) rfl

/-!
## Claim C3
-/

/-- C3 (amended): for every set of readable input files and directories with
arbitrary byte content, provided every input has a base name, the derived
archive names are pairwise distinct and valid UTF-8, and the fresh output path
is not among or under the inputs, running `create_zip_from_files` and then
`read_zip_contents_into_buffer` with no credential yields a mapping that agrees
at every key with the specification mapping: keys are exactly the input files'
base names (directory inputs contribute their files' relative paths prefixed by
the directory's base name) and values are the original byte contents. -/
theorem c3_create_then_read_matches_spec
    (fs : FS) (outP : RPath) (inputs : List RPath) (fuel : Nat)
    (prs : List (RPath × List (List Nat)))
    (hfresh : pathExistsB fs outP = false)
    (hwf : wfFS (setFile fs outP (FileData.zip [])) = true)
    (hraw : ∀ qd ∈ fs.files, qd.2 = FileData.bytes (contentBytes (some qd.2)))
    (hsep : ∀ p ∈ inputs, ¬ p = outP ∧ ¬ strictUnder p outP)
    (hprs : initPairs inputs = some prs)
    (hfuel : stackCost (setFile fs outP (FileData.zip [])) prs.reverse ≤ fuel)
    (hvalid : ∀ kv ∈ specList fs inputs, isValidUtf8 kv.1 = true)
    (hnodup : ((specList fs inputs).map Prod.fst).Nodup) :
    (create_zip_from_files fs outP inputs fuel).1 = BuildOut.ok ∧
    (read_zip_contents_into_buffer (create_zip_from_files fs outP inputs fuel).2 outP
        none (List.range (archLen (create_zip_from_files fs outP inputs fuel).2 outP))).toOption.isSome
      = true ∧
    ∀ k, (read_zip_contents_into_buffer (create_zip_from_files fs outP inputs fuel).2 outP
        none (List.range (archLen (create_zip_from_files fs outP inputs fuel).2 outP))).toOption.bind
          (fun m => lookupM m k)
      = lookupM (specList fs inputs) k := by
  obtain ⟨h1, m, hm, hk⟩ :=
    c3_core fs outP inputs fuel prs hfresh hwf hsep hprs hfuel hvalid hnodup
  refine ⟨h1, by rw [hm]; rfl, ?_⟩
  intro k
  rw [hm]
  simpa using hk k

/-- C3 witness: the specification's concrete scenario, `root.txt = b"Root"`
and `sub/` containing `subfile.txt = b"Subfile"`, reads back as exactly
`root.txt = b"Root"` and `sub/subfile.txt = b"Subfile"`. -/
theorem c3_create_then_read_matches_spec_witness :
    (create_zip_from_files fsT outT inT 9).1 = BuildOut.ok ∧
    (read_zip_contents_into_buffer (create_zip_from_files fsT outT inT 9).2 outT
        none (List.range (archLen (create_zip_from_files fsT outT inT 9).2 outT))).toOption.isSome
      = true ∧
    (read_zip_contents_into_buffer (create_zip_from_files fsT outT inT 9).2 outT
        none (List.range (archLen (create_zip_from_files fsT outT inT 9).2 outT))).toOption.bind
          (fun m => lookupM m (strB "root.txt"))
      = lookupM (specList fsT inT) (strB "root.txt") ∧
    (read_zip_contents_into_buffer (create_zip_from_files fsT outT inT 9).2 outT
        none (List.range (archLen (create_zip_from_files fsT outT inT 9).2 outT))).toOption.bind
          (fun m => lookupM m (strB "sub/subfile.txt"))
      = lookupM (specList fsT inT) (strB "sub/subfile.txt") ∧
    lookupM (specList fsT inT) (strB "root.txt") = some (strB "Root") ∧
    lookupM (specList fsT inT) (strB "sub/subfile.txt") = some (strB "Subfile") := by
  obtain ⟨h1, h2, h3⟩ :=
    c3_create_then_read_matches_spec fsT outT inT 9
      [({ abs := false, comps := [strB "root.txt"] }, [strB "root.txt"]),
       ({ abs := false, comps := [strB "sub"] }, [strB "sub"])]
      (by decide) (by decide) (by decide) (by decide) (by decide) (by decide)
      (by decide) (by decide)
  exact ⟨h1, h2, h3 (strB "root.txt"), h3 (strB "sub/subfile.txt"), by decide, by decide⟩

/-- C3 counterexample: with inputs `a/x` (content 0x30) and `b/x` (content
0x31), whose base names collide, the call succeeds but the resulting mapping
has the single key `x` bound to `a/x`'s content, so the claimed "values equal
the original byte contents" fails for the input file `b/x`. -/
theorem c3_counterexample_basename_collision :
    (create_zip_from_files fsX outX inX 9).1 = BuildOut.ok ∧
    read_zip_contents_into_buffer (create_zip_from_files fsX outX inX 9).2 outX none
        (List.range (archLen (create_zip_from_files fsX outX inX 9).2 outX))
      = .ok [([120], [48])] ∧
    ({ abs := false, comps := [[98], [120]] } : RPath) ∈ inX ∧
    lookupFile fsX { abs := false, comps := [[98], [120]] } = some (.bytes [49]) ∧
    fileName { abs := false, comps := [[98], [120]] } = some [120] ∧
    ¬ lookupM [([120], [48])] [120] = some [49] := by
  decide

/-!
## Claim C1
-/

/-- C1 (code-bug evidence): on an archive whose first entry cannot be decoded
without a credential, the worker fails with the missing-credential error, yet
`extract_zip` returns success and extracts nothing — the `Result` of
`try_for_each` is discarded on zip_reader.rs lines 75-94 and line 95 returns
`Ok(())`, contradicting the function's own error documentation (lines 31-37). -/
theorem c1_extract_zip_swallows_worker_failure :
    extractWorker fsC1 destC1 none
        [⟨strB "a.txt", strB "alpha", some (strB "pw")⟩,
         ⟨strB "b.txt", strB "beta", none⟩] 0
      = .error .missingCredentialError ∧
    (extract_zip fsC1 zpC1 destC1 none [0, 1]).1 = .ok () ∧
    (extract_zip fsC1 zpC1 destC1 none [0, 1]).2 = fsC1 := by
  decide

/-!
## Claim C2
-/

/-- C2: calling either build operation with an `output_zip_path` that already
exists fails immediately with the output-already-exists failure — the
`panic!("Output zip path already exists.")` at zip_writer.rs lines 47 and 117,
which spec section 9 names `OutputAlreadyExistsError` — before the output file
is created or any write begins: the filesystem is returned unchanged, so the
pre-existing file's content is untouched. -/
theorem c2_output_exists_guard (fs : FS) (outP : RPath)
    (inputs : List RPath) (folderP : RPath) (fuel : Nat)
    (hex : pathExistsB fs outP = true) :
    create_zip_from_files fs outP inputs fuel = (.panicOutputExists, fs) ∧
    create_zip_from_folder fs outP folderP fuel = (.panicOutputExists, fs) := by
  constructor
  · unfold create_zip_from_files
    rw [if_pos hex]
  · unfold create_zip_from_folder
    rw [if_pos hex]

/-- C2 witness: with a file already at `exists.zip`, both builders fail with
the output-already-exists panic and leave the filesystem unchanged. -/
theorem c2_output_exists_guard_witness :
    pathExistsB fsC2 outC2 = true ∧
    create_zip_from_files fsC2 outC2 [{ abs := false, comps := [strB "folder"] }] 5
      = (.panicOutputExists, fsC2) ∧
    create_zip_from_folder fsC2 outC2 { abs := false, comps := [strB "folder"] } 5
      = (.panicOutputExists, fsC2) := by
  have h := c2_output_exists_guard fsC2 outC2
    [{ abs := false, comps := [strB "folder"] }]
    { abs := false, comps := [strB "folder"] } 5 (by decide)
  exact ⟨by decide, h.1, h.2⟩

/-!
## Claim C4
-/

/-- C4 (code-bug evidence): on an archive with one ZipCrypto-encrypted entry,
`read_zip_contents_into_buffer` with no credential fails with the
missing-credential error and with the correct credential returns the exact
plaintext, as claimed; but `extract_zip` with no credential returns success —
its workers' failures are discarded (zip_reader.rs lines 75-95) — instead of
failing as the claim and the function's own docs state.  With the correct
credential it does write the exact plaintext. -/
theorem c4_credential_gating_and_extract_bug :
    read_zip_contents_into_buffer fsC4 zpC4 none [0] = .error .missingCredentialError ∧
    read_zip_contents_into_buffer fsC4 zpC4 (some (strB "hunter2")) [0]
      = .ok [(strB "t.txt", strB "topsecret")] ∧
    (extract_zip fsC4 zpC4 destC4 none [0]).1 = .ok () ∧
    lookupFile (extract_zip fsC4 zpC4 destC4 (some (strB "hunter2")) [0]).2
        { abs := true, comps := [strB "o4", strB "t.txt"] }
      = some (.bytes (strB "topsecret")) := by
  decide

/-!
## Claim C5
-/

/-- C5: whenever decoding some scheduled entry fails,
`read_zip_contents_into_buffer` returns exactly one error and no mapping —
the worker failure propagates through `try_for_each` and the `?` on
zip_reader.rs line 185, so no partially populated mapping is ever returned. -/
theorem c5_read_failure_yields_single_error (fs : FS) (zipPath : RPath)
    (cred : Option (List Nat)) (sched : List Nat) (es : List ZEntry)
    (i : Nat) (e : ZEntry) (err : ZipError)
    (hz : lookupFile fs zipPath = some (.zip es))
    (hi : i ∈ sched) (hei : es[i]? = some e)
    (hdec : decodeEntry e cred = .error err) :
    (∃ err2, read_zip_contents_into_buffer fs zipPath cred sched = .error err2) ∧
    ∀ m, ¬ read_zip_contents_into_buffer fs zipPath cred sched = .ok m := by
  obtain ⟨err2, h2⟩ := readLoop_fails hei hdec sched [] hi
  have hr : read_zip_contents_into_buffer fs zipPath cred sched = .error err2 := by
    unfold read_zip_contents_into_buffer
    rw [hz]
    exact h2
  refine ⟨⟨err2, hr⟩, ?_⟩
  intro m hm
  rw [hr] at hm
  cases hm

/-- C5 witness: reading an archive whose only entry is encrypted, with no
credential, returns the missing-credential error and no mapping. -/
theorem c5_read_failure_yields_single_error_witness :
    ¬ read_zip_contents_into_buffer fsC5 zpC5 none [0] = .ok [] ∧
    read_zip_contents_into_buffer fsC5 zpC5 none [0]
      = .error .missingCredentialError := by
  have h := c5_read_failure_yields_single_error fsC5 zpC5 none [0]
      [⟨strB "e.txt", strB "data5", some (strB "k5")⟩] 0
      ⟨strB "e.txt", strB "data5", some (strB "k5")⟩ .missingCredentialError
      (by decide) (by decide) (by decide) (by decide)
  exact ⟨h.2 [], by decide⟩

/-!
## Claim C9
-/

/-- The first loop of `create_zip_from_files` fails when any listed path lacks
a base name. -/
lemma initPairs_none_of_bad {inputs : List RPath} {p : RPath}
    (hp : p ∈ inputs) (hb : fileName p = none) : initPairs inputs = none := by
  induction inputs with
  | nil => cases hp
  | cons q rest ih =>
    rcases List.mem_cons.mp hp with rfl | h2
    · simp [initPairs, hb]
    · simp only [initPairs]
      cases hq : fileName q with
      | none => rfl
      | some b => rw [ih h2]; rfl

/-- C9: `create_zip_from_files` creates the output file (zip_writer.rs line
119) before examining any input path (lines 124-128), so when some listed path
has no base name the call returns the "Invalid file name" error value but a
newly created empty archive file is left behind at the output path. -/
theorem c9_output_left_behind_on_invalid_input (fs : FS) (outP : RPath)
    (inputs : List RPath) (p : RPath) (fuel : Nat)
    (hfresh : pathExistsB fs outP = false)
    (hp : p ∈ inputs) (hb : fileName p = none) :
    (create_zip_from_files fs outP inputs fuel).1 = BuildOut.errInvalidFileName ∧
    lookupFile (create_zip_from_files fs outP inputs fuel).2 outP
      = some (FileData.zip []) := by
  have hcond : ¬ pathExistsB fs outP = true := by rw [hfresh]; simp
  unfold create_zip_from_files
  rw [if_neg hcond, initPairs_none_of_bad hp hb]
  exact ⟨rfl, lookupFile_setFile_self fs outP (FileData.zip [])⟩

/-- C9 witness: listing the path `/`, which has no base name, on an empty
filesystem: the call errors but the empty archive file exists afterwards. -/
theorem c9_output_left_behind_on_invalid_input_witness :
    pathExistsB fsC9 outC9 = false ∧
    (create_zip_from_files fsC9 outC9 [{ abs := true, comps := [] }] 5).1
      = BuildOut.errInvalidFileName ∧
    lookupFile (create_zip_from_files fsC9 outC9 [{ abs := true, comps := [] }] 5).2 outC9
      = some (FileData.zip []) := by
  have h := c9_output_left_behind_on_invalid_input fsC9 outC9
      [{ abs := true, comps := [] }] { abs := true, comps := [] } 5
      (by decide) (by decide) (by decide)
  exact ⟨by decide, h.1, h.2⟩

/-!
## Claim C7
-/

/-- C7 counterexample: on an archive whose entry is named `/` — a stored name
that resolves to no valid parent under the extraction directory —
`extract_zip` does not signal `InvalidEntryPathError`: the worker's file
creation fails with a plain I/O error, that failure is discarded, and the call
reports success. -/
theorem c7_counterexample_no_invalid_entry_path_error :
    (extract_zip fsC7 zpC7 destC7 none [0]).1 = .ok () ∧
    ¬ (extract_zip fsC7 zpC7 destC7 none [0]).1 = .error .invalidEntryPathError ∧
    extractWorker fsC7 destC7 none [⟨[47], strB "payload", none⟩] 0
      = .error .ioError := by
  decide

/-- C7 (amended): an entry whose stored name cannot be resolved to a valid
parent path under `extract_path` does not signal `InvalidEntryPathError`.  The
parent-handling `if let` (zip_reader.rs lines 85-89) silently skips, the
worker's subsequent `File::create` on the root fails with an I/O error, and
`extract_zip` — whose worker results are discarded — still returns success for
any schedule. -/
theorem c7_no_parent_entry_error_swallowed (fs : FS) (zipPath extractPath : RPath)
    (cred : Option (List Nat)) (es : List ZEntry) (sched : List Nat)
    (i : Nat) (e : ZEntry)
    (hz : lookupFile fs zipPath = some (.zip es))
    (hei : es[i]? = some e)
    (henc : e.encryption = none)
    (habs : extractPath.abs = true)
    (hpar : pathParent (pathJoin extractPath (parsePath e.name)) = none) :
    (extract_zip fs zipPath extractPath cred sched).1 = .ok () ∧
    ∀ fsx, extractWorker fsx extractPath cred es i = .error .ioError := by
  constructor
  · unfold extract_zip
    rw [hz]
  · intro fsx
    have hout : (pathJoin extractPath (parsePath e.name)).abs = true ∧
        (pathJoin extractPath (parsePath e.name)).comps = [] := by
      have hcomps : (pathJoin extractPath (parsePath e.name)).comps = [] := by
        unfold pathParent at hpar
        cases hcs : (pathJoin extractPath (parsePath e.name)).comps with
        | nil => rfl
        | cons a t => rw [hcs] at hpar; cases hpar
      refine ⟨?_, hcomps⟩
      unfold pathJoin at hcomps ⊢
      by_cases hb : (parsePath e.name).abs = true
      · rw [if_pos hb]
        exact hb
      · rw [if_neg hb]
        exact habs
    have hdir : isDirB fsx (pathJoin extractPath (parsePath e.name)) = true := by
      unfold isDirB
      rw [hout.1, hout.2]
      rfl
    have hdec : decodeEntry e cred = .ok e.data := by
      unfold decodeEntry
      rw [henc]
    unfold extractWorker createFileW
    simp [hei, hdec, hpar, hdir]

/-- C7 witness: an archive with a plain entry and an entry named `//`
(resolving to the root, hence no parent): extraction succeeds, yet the worker
for the second entry fails with an I/O error (not `InvalidEntryPathError`). -/
theorem c7_no_parent_entry_error_swallowed_witness :
    (extract_zip fsC7w zpC7w destC7w none [0, 1]).1 = .ok () ∧
    extractWorker fsC7w destC7w none
        [⟨strB "fine.txt", strB "fine", none⟩, ⟨[47, 47], strB "oops", none⟩] 1
      = .error .ioError := by
  have h := c7_no_parent_entry_error_swallowed fsC7w zpC7w destC7w none
      [⟨strB "fine.txt", strB "fine", none⟩, ⟨[47, 47], strB "oops", none⟩]
      [0, 1] 1 ⟨[47, 47], strB "oops", none⟩
      (by decide) (by decide) (by decide) (by decide) (by decide)
  exact ⟨h.1, h.2 fsC7w⟩

/-!
## Claim C8
-/

/-- Characterization of a successful read: with pairwise distinct entry names
and a schedule covering exactly the valid ordinals, the resulting mapping at
any key is determined by the archive alone, not by the schedule. -/
lemma read_characterize {es : List ZEntry} {cred : Option (List Nat)}
    {sched : List Nat} {m : List (List Nat × List Nat)}
    (hnd : (es.map (fun e => e.name)).Nodup)
    (hperm : sched.Perm (List.range es.length))
    (hok : readLoop es cred sched [] = .ok m) :
    ∀ k, lookupM m k =
      (es.find? (fun e => e.name = k)).bind (fun e => (decodeEntry e cred).toOption) := by
  intro k
  have hall := (readLoop_eq_fold sched [] m hok).1
  cases hfind : es.find? (fun e => e.name = k) with
  | some e =>
    have hmem := List.mem_of_find?_eq_some hfind
    have hname : e.name = k := by simpa using List.find?_some hfind
    obtain ⟨j, hgj⟩ := List.mem_iff_getElem?.mp hmem
    have hjlt : j < es.length := (List.getElem?_eq_some.mp hgj).1
    have hjs : j ∈ sched := hperm.mem_iff.mpr (List.mem_range.mpr hjlt)
    have hne := hall j hjs
    obtain ⟨b, hb⟩ : ∃ b, decodeEntry e cred = .ok b := by
      cases hd : decodeEntry e cred with
      | ok b => exact ⟨b, rfl⟩
      | error err =>
        exfalso
        apply hne
        simp [toIns, hgj, hd]
    have htj : toIns es cred j = some (k, b) := by
      simp [toIns, hgj, hb, hname]
    rw [read_lookup_of_unique hok ⟨j, hjs, htj⟩ ?_]
    · simp [hb, Except.toOption]
    · intro i2 hi2 v2 hti2
      cases hgi2 : es[i2]? with
      | none => simp [toIns, hgi2] at hti2
      | some e2 =>
        cases hd2 : decodeEntry e2 cred with
        | error err2 => simp [toIns, hgi2, hd2] at hti2
        | ok b2 =>
          simp only [toIns, hgi2, hd2] at hti2
          have hpair := Option.some.injEq _ _ |>.mp hti2
          have hname2 : e2.name = k := congrArg Prod.fst hpair
          have hb2 : b2 = v2 := congrArg Prod.snd hpair
          have hmem2 : e2 ∈ es := List.mem_iff_getElem?.mpr ⟨i2, hgi2⟩
          have : e2 = e := List.inj_on_of_nodup_map hnd hmem2 hmem (by rw [hname2, hname])
          rw [this] at hd2
          rw [hb] at hd2
          rw [← hb2, Except.ok.injEq _ _ |>.mp hd2]
  | none =>
    rw [read_lookup_none hok ?_]
    · rfl
    · intro i hi v2 hti
      cases hgi : es[i]? with
      | none => simp [toIns, hgi] at hti
      | some e2 =>
        cases hd2 : decodeEntry e2 cred with
        | error err2 => simp [toIns, hgi, hd2] at hti
        | ok b2 =>
          simp only [toIns, hgi, hd2] at hti
          have hpair := Option.some.injEq _ _ |>.mp hti
          have hname2 : e2.name = k := congrArg Prod.fst hpair
          have hmem2 : e2 ∈ es := List.mem_iff_getElem?.mpr ⟨i, hgi⟩
          have := List.find?_eq_none.mp hfind e2 hmem2
          simp [hname2] at this

/-- C8: two calls to `read_zip_contents_into_buffer` on the same unmodified
well-formed archive (pairwise distinct entry names) with the same credential
return equal mappings — the same key set with the same bytes per key —
regardless of the two runs' worker completion orders. -/
theorem c8_read_idempotent (fs : FS) (zipPath : RPath)
    (cred : Option (List Nat)) (es : List ZEntry)
    (s1 s2 : List Nat) (m1 m2 : List (List Nat × List Nat))
    (hz : lookupFile fs zipPath = some (.zip es))
    (hnd : (es.map (fun e => e.name)).Nodup)
    (hp1 : s1.Perm (List.range es.length))
    (hp2 : s2.Perm (List.range es.length))
    (h1 : read_zip_contents_into_buffer fs zipPath cred s1 = .ok m1)
    (h2 : read_zip_contents_into_buffer fs zipPath cred s2 = .ok m2) :
    ∀ k, lookupM m1 k = lookupM m2 k := by
  intro k
  unfold read_zip_contents_into_buffer at h1 h2
  rw [hz] at h1 h2
  rw [read_characterize hnd hp1 h1 k, read_characterize hnd hp2 h2 k]

/-- C8 witness: reading a two-entry archive with the two opposite completion
orders yields mappings that agree on both keys. -/
theorem c8_read_idempotent_witness :
    read_zip_contents_into_buffer fsC8 zpC8 none [0, 1]
      = .ok [(strB "one.txt", strB "first"), (strB "two.txt", strB "second")] ∧
    read_zip_contents_into_buffer fsC8 zpC8 none [1, 0]
      = .ok [(strB "two.txt", strB "second"), (strB "one.txt", strB "first")] ∧
    lookupM [(strB "one.txt", strB "first"), (strB "two.txt", strB "second")] (strB "one.txt")
      = lookupM [(strB "two.txt", strB "second"), (strB "one.txt", strB "first")] (strB "one.txt") ∧
    lookupM [(strB "one.txt", strB "first"), (strB "two.txt", strB "second")] (strB "two.txt")
      = lookupM [(strB "two.txt", strB "second"), (strB "one.txt", strB "first")] (strB "two.txt") := by
  have h := c8_read_idempotent fsC8 zpC8 none
      [⟨strB "one.txt", strB "first", none⟩, ⟨strB "two.txt", strB "second", none⟩]
      [0, 1] [1, 0]
      [(strB "one.txt", strB "first"), (strB "two.txt", strB "second")]
      [(strB "two.txt", strB "second"), (strB "one.txt", strB "first")]
      (by decide) (by decide) (by decide) (by decide) (by decide) (by decide)
  exact ⟨by decide, by decide, h (strB "one.txt"), h (strB "two.txt")⟩

/-!
## Claim C10
-/

/-- The first loop of `create_zip_from_files` over a concatenation. -/
lemma initPairs_append :
    ∀ (xs ys : List RPath),
      initPairs (xs ++ ys)
        = (initPairs xs).bind (fun as => (initPairs ys).map (fun bs => as ++ bs)) := by
  intro xs
  induction xs with
  | nil =>
    intro ys
    simp [initPairs]
  | cons q rest ih =>
    intro ys
    simp only [List.cons_append, initPairs]
    cases fileName q with
    | none => rfl
    | some b =>
      simp only [List.append_eq] at *
      rw [ih ys]
      cases initPairs rest with
      | none => rfl
      | some as =>
        cases initPairs ys with
        | none => rfl
        | some bs => rfl

/-- C10: a listed path that exists as neither a regular file nor a directory
is silently skipped by the work-list loop (the `is_dir`/`is_file` chain on
zip_writer.rs lines 131-142 has no failing branch): the whole call — outcome
and resulting filesystem — equals the call without that path, so it does not
fail the call and contributes no entry to the archive. -/
theorem c10_nonexistent_input_skipped (fs : FS) (outP : RPath)
    (l1 l2 : List RPath) (p : RPath) (b : List Nat) (fuel : Nat)
    (hfresh : pathExistsB fs outP = false)
    (hb : fileName p = some b)
    (hd : ¬ isDirB (setFile fs outP (FileData.zip [])) p = true)
    (hf : ¬ isFileB (setFile fs outP (FileData.zip [])) p = true)
    (hfuel : ∀ prs, initPairs (l1 ++ l2) = some prs →
      stackCost (setFile fs outP (FileData.zip [])) prs.reverse ≤ fuel) :
    create_zip_from_files fs outP (l1 ++ p :: l2) (fuel + 1)
      = create_zip_from_files fs outP (l1 ++ l2) fuel := by
  have hcond : ¬ pathExistsB fs outP = true := by rw [hfresh]; simp
  unfold create_zip_from_files
  rw [if_neg hcond, if_neg hcond]
  rw [initPairs_append l1 (p :: l2), initPairs_append l1 l2]
  have hexp : initPairs (p :: l2) = (initPairs l2).map (fun bs => (p, [b]) :: bs) := by
    simp [initPairs, hb]
  rw [hexp]
  cases h1 : initPairs l1 with
  | none => rfl
  | some as =>
    cases h2 : initPairs l2 with
    | none => rfl
    | some bs =>
      have hstack : (as ++ (p, [b]) :: bs).reverse
          = bs.reverse ++ (p, [b]) :: as.reverse := by
        rw [List.reverse_append, List.reverse_cons, List.append_assoc]
        simp
      have hcost : stackCost (setFile fs outP (FileData.zip [])) (bs.reverse ++ as.reverse)
          ≤ fuel := by
        have h3 := hfuel (as ++ bs)
          (by rw [initPairs_append l1 l2, h1, h2]; rfl)
        rw [List.reverse_append] at h3
        exact h3
      have hskip := @buildLoop_skip _ _ [b] hd hf as.reverse fuel bs.reverse [] hcost
      simp only [Option.map_some', Option.some_bind]
      rw [hstack, hskip, List.reverse_append]

/-- C10 witness: listing a nonexistent `ghost.txt` alongside a real file
produces exactly the same call result as not listing it, and the call
succeeds. -/
theorem c10_nonexistent_input_skipped_witness :
    create_zip_from_files fsC10 outC10
        ([{ abs := false, comps := [strB "real.txt"] }] ++ ghostC10 :: []) 6
      = create_zip_from_files fsC10 outC10
          ([{ abs := false, comps := [strB "real.txt"] }] ++ []) 5 ∧
    (create_zip_from_files fsC10 outC10
        [{ abs := false, comps := [strB "real.txt"] }, ghostC10] 6).1 = BuildOut.ok := by
  have h := c10_nonexistent_input_skipped fsC10 outC10
      [{ abs := false, comps := [strB "real.txt"] }] [] ghostC10 (strB "ghost.txt") 5
      (by decide) (by decide) (by decide) (by decide)
      (by intro prs hp
          rw [List.append_nil] at hp
          have h2 : initPairs [({ abs := false, comps := [strB "real.txt"] } : RPath)]
              = some [({ abs := false, comps := [strB "real.txt"] }, [strB "real.txt"])] := by
            decide
          rw [h2] at hp
          rw [(Option.some.injEq _ _ |>.mp hp).symm]
          decide)
  exact ⟨h, by decide⟩

/-!
## The folder builder's walk
-/

/-- Every `read_dir` child of a directory is itself a file or a directory on a
well-formed filesystem. -/
lemma child_kind {fs : FS} (hw : wfFS fs = true) {d : RPath} {c : List Nat}
    (hc : c ∈ readDir fs d) :
    isDirB fs (childP d c) = true ∨ isFileB fs (childP d c) = true := by
  obtain ⟨q, hq, hu, hg⟩ := readDir_mem_inv hc
  obtain ⟨habs, hlen, htake⟩ := hu
  have hcomps : (childP d c).comps = q.comps.take (d.comps.length + 1) := by
    rw [take_succ_of_getElem hg, htake]
    rfl
  by_cases hfin : d.comps.length + 1 = q.comps.length
  · have hqeq : childP d c = q := by
      have h5 : (childP d c).comps = q.comps := by
        rw [hcomps, hfin, List.take_length]
      cases q
      cases d
      simp only [childP, RPath.mk.injEq] at h5 ⊢
      exact ⟨habs, h5⟩
    rw [hqeq]
    unfold allPaths at hq
    rcases List.mem_append.mp hq with hqf | hqd
    · obtain ⟨qd, hqm, rfl⟩ := List.mem_map.mp hqf
      right
      exact isFileB_of_mem hw hqm
    · left
      unfold isDirB
      rw [Bool.or_eq_true]
      right
      exact List.elem_iff.mpr hqd
  · left
    have hlt : d.comps.length + 1 < q.comps.length := by omega
    have hpd := wf_prefix_dir hw hq (j := d.comps.length + 1) (by omega) hlt
    have hrepr : childP d c = { abs := q.abs, comps := q.comps.take (d.comps.length + 1) } := by
      cases d
      simp only [childP, RPath.mk.injEq] at hcomps ⊢
      exact ⟨habs, hcomps⟩
    rw [hrepr]
    exact hpd

/-- Membership in a directory's child-directory list. -/
lemma dirChildren_mem {fs : FS} {d : RPath} {x : RPath} :
    x ∈ dirChildren fs d ↔
      ∃ c ∈ readDir fs d, isDirB fs (childP d c) = true ∧ x = childP d c := by
  unfold dirChildren
  rw [List.mem_filterMap]
  constructor
  · rintro ⟨c, hc, hx⟩
    by_cases hdc : isDirB fs (childP d c) = true
    · rw [if_pos hdc] at hx
      exact ⟨c, hc, hdc, (Option.some.injEq _ _ |>.mp hx).symm⟩
    · rw [if_neg hdc] at hx
      cases hx
  · rintro ⟨c, hc, hdc, rfl⟩
    exact ⟨c, hc, by rw [if_pos hdc]⟩

/-- A child directory is one component longer than its parent. -/
lemma dirChildren_len {fs : FS} {d : RPath} {x : RPath} (h : x ∈ dirChildren fs d) :
    x.comps.length = d.comps.length + 1 := by
  obtain ⟨c, -, -, rfl⟩ := dirChildren_mem.mp h
  simp [childP]

/-- A directory deeper than every existing path has no child directories. -/
lemma dirChildren_nil {fs : FS} {d : RPath} (h : maxLenFS fs < d.comps.length) :
    dirChildren fs d = [] := by
  unfold dirChildren
  rw [readDir_nil h]
  rfl

/-- The folder walk's pop tree is independent of a sufficient depth bound. -/
lemma dirNodesB_stab {fs : FS} :
    ∀ (b b' : Nat) (d : RPath),
      maxLenFS fs < d.comps.length + b → maxLenFS fs < d.comps.length + b' →
      dirNodesB fs b d = dirNodesB fs b' d := by
  intro b
  induction b with
  | zero =>
    intro b' d hb hb'
    have hch : dirChildren fs d = [] := dirChildren_nil (by omega)
    cases b' with
    | zero => rfl
    | succ b1 => simp [dirNodesB, hch]
  | succ b0 ih =>
    intro b' d hb hb'
    cases b' with
    | zero =>
      have hch : dirChildren fs d = [] := dirChildren_nil (by omega)
      simp [dirNodesB, hch]
    | succ b1 =>
      simp only [dirNodesB]
      congr 1
      congr 1
      apply List.map_congr_left
      intro x hx
      have hlen := dirChildren_len hx
      apply ih
      · omega
      · omega

/-- Every folder-walk pop tree is nonempty. -/
lemma dirNodesB_length_pos {fs : FS} (b : Nat) (d : RPath) :
    1 ≤ (dirNodesB fs b d).length := by
  cases b with
  | zero => simp [dirNodesB]
  | succ b0 => simp [dirNodesB]

/-- The folder walk's cost decomposes over the work list's head. -/
lemma visitCost_cons {fs : FS} (d : RPath) (s : List RPath) :
    visitCost fs (d :: s) = (dirNodesB fs (topB fs) d).length + visitCost fs s := by
  simp [visitCost]

/-- The folder walk's cost decomposes over concatenation. -/
lemma visitCost_append {fs : FS} (s t : List RPath) :
    visitCost fs (s ++ t) = visitCost fs s + visitCost fs t := by
  simp [visitCost]

/-- The folder walk's cost ignores the work list's order. -/
lemma visitCost_reverse {fs : FS} (s : List RPath) :
    visitCost fs s.reverse = visitCost fs s := by
  unfold visitCost
  rw [List.map_reverse, List.sum_reverse]

/-- The cost of a directory pop is one plus its child directories' cost. -/
lemma dirCost_unfold {fs : FS} (d : RPath) :
    (dirNodesB fs (topB fs) d).length = 1 + visitCost fs (dirChildren fs d) := by
  unfold topB
  show (dirNodesB fs (maxLenFS fs + 1) d).length = _
  simp only [dirNodesB, List.length_cons]
  rw [List.length_flatten]
  unfold visitCost topB
  rw [List.map_map]
  have hcong : List.map (List.length ∘ dirNodesB fs (maxLenFS fs)) (dirChildren fs d)
      = List.map (fun x => (dirNodesB fs (maxLenFS fs + 1) x).length) (dirChildren fs d) := by
    apply List.map_congr_left
    intro x hx
    have hlen := dirChildren_len hx
    simp only [Function.comp_apply]
    rw [dirNodesB_stab (maxLenFS fs) (maxLenFS fs + 1) x (by omega) (by omega)]
  rw [hcong]
  omega

/-- The per-directory scan panics (the `unwrap` on zip_writer.rs line 65) as
soon as it reaches a non-directory child whose root-relative name is not valid
UTF-8. -/
lemma folderScan_panic {fs : FS} {root d : RPath} (hw : wfFS fs = true) :
    ∀ (cs : List (List Nat)) (ds : List RPath) (acc : List (List Nat × List Nat)),
      (∀ c ∈ cs, c ∈ readDir fs d) →
      (∃ c ∈ cs, ¬ isDirB fs (childP d c) = true ∧
        ¬ isValidUtf8 (joinName ((childP d c).comps.drop root.comps.length)) = true) →
      (folderScan fs root d cs ds acc).1 = .panicNonUtf8 := by
  intro cs
  induction cs with
  | nil =>
    intro ds acc _ hex
    obtain ⟨c, hc, -⟩ := hex
    cases hc
  | cons c0 cs ih =>
    intro ds acc hmem hex
    by_cases hd0 : isDirB fs (childP d c0) = true
    · have hstep : folderScan fs root d (c0 :: cs) ds acc
          = folderScan fs root d cs (ds ++ [childP d c0]) acc := by
        simp [folderScan, hd0]
      rw [hstep]
      apply ih _ _ (fun c hc => hmem c (List.mem_cons_of_mem _ hc))
      obtain ⟨c, hc, h1, h2⟩ := hex
      rcases List.mem_cons.mp hc with rfl | hc2
      · exact absurd hd0 h1
      · exact ⟨c, hc2, h1, h2⟩
    · have hf0 : isFileB fs (childP d c0) = true := by
        rcases child_kind hw (hmem c0 (List.mem_cons_self _ _)) with h | h
        · exact absurd h hd0
        · exact h
      by_cases hval : isValidUtf8 (joinName ((childP d c0).comps.drop root.comps.length)) = true
      · have hstep : folderScan fs root d (c0 :: cs) ds acc
            = folderScan fs root d cs ds
                (acc ++ [(joinName ((childP d c0).comps.drop root.comps.length),
                  contentBytes (lookupFile fs (childP d c0)))]) := by
          simp [folderScan, hd0, hval, hf0]
        rw [hstep]
        apply ih _ _ (fun c hc => hmem c (List.mem_cons_of_mem _ hc))
        obtain ⟨c, hc, h1, h2⟩ := hex
        rcases List.mem_cons.mp hc with rfl | hc2
        · exact absurd hval h2
        · exact ⟨c, hc2, h1, h2⟩
      · simp [folderScan, hd0, hval]

/-- On a well-formed filesystem the per-directory scan either succeeds or
panics on a non-UTF-8 name; the `File::open` I/O failure branch is
unreachable. -/
lemma folderScan_no_other {fs : FS} {root d : RPath} (hw : wfFS fs = true) :
    ∀ (cs : List (List Nat)) (ds : List RPath) (acc : List (List Nat × List Nat)),
      (∀ c ∈ cs, c ∈ readDir fs d) →
      (folderScan fs root d cs ds acc).1 = .ok ∨
        (folderScan fs root d cs ds acc).1 = .panicNonUtf8 := by
  intro cs
  induction cs with
  | nil => intro ds acc _; left; rfl
  | cons c0 cs ih =>
    intro ds acc hmem
    by_cases hd0 : isDirB fs (childP d c0) = true
    · have hstep : folderScan fs root d (c0 :: cs) ds acc
          = folderScan fs root d cs (ds ++ [childP d c0]) acc := by
        simp [folderScan, hd0]
      rw [hstep]
      exact ih _ _ (fun c hc => hmem c (List.mem_cons_of_mem _ hc))
    · have hf0 : isFileB fs (childP d c0) = true := by
        rcases child_kind hw (hmem c0 (List.mem_cons_self _ _)) with h | h
        · exact absurd h hd0
        · exact h
      by_cases hval : isValidUtf8 (joinName ((childP d c0).comps.drop root.comps.length)) = true
      · have hstep : folderScan fs root d (c0 :: cs) ds acc
            = folderScan fs root d cs ds
                (acc ++ [(joinName ((childP d c0).comps.drop root.comps.length),
                  contentBytes (lookupFile fs (childP d c0)))]) := by
          simp [folderScan, hd0, hval, hf0]
        rw [hstep]
        exact ih _ _ (fun c hc => hmem c (List.mem_cons_of_mem _ hc))
      · right
        simp [folderScan, hd0, hval]

/-- A successful per-directory scan collects exactly the child directories. -/
lemma folderScan_dirs {fs : FS} {root d : RPath} :
    ∀ (cs : List (List Nat)) (ds : List RPath) (acc : List (List Nat × List Nat)),
      (folderScan fs root d cs ds acc).1 = .ok →
      (folderScan fs root d cs ds acc).2.1
        = ds ++ cs.filterMap
            (fun c => if isDirB fs (childP d c) then some (childP d c) else none) := by
  intro cs
  induction cs with
  | nil => intro ds acc _; simp [folderScan]
  | cons c0 cs ih =>
    intro ds acc hok
    by_cases hd0 : isDirB fs (childP d c0) = true
    · have hstep : folderScan fs root d (c0 :: cs) ds acc
          = folderScan fs root d cs (ds ++ [childP d c0]) acc := by
        simp [folderScan, hd0]
      rw [hstep] at hok ⊢
      rw [ih _ _ hok]
      rw [List.filterMap_cons, if_pos hd0]
      simp
    · by_cases hval : isValidUtf8 (joinName ((childP d c0).comps.drop root.comps.length)) = true
      · by_cases hf0 : isFileB fs (childP d c0) = true
        · have hstep : folderScan fs root d (c0 :: cs) ds acc
              = folderScan fs root d cs ds
                  (acc ++ [(joinName ((childP d c0).comps.drop root.comps.length),
                    contentBytes (lookupFile fs (childP d c0)))]) := by
            simp [folderScan, hd0, hval, hf0]
          rw [hstep] at hok ⊢
          rw [ih _ _ hok]
          rw [List.filterMap_cons, if_neg hd0]
        · exfalso
          have : (folderScan fs root d (c0 :: cs) ds acc).1 = .errIoError := by
            simp [folderScan, hd0, hval, hf0]
          rw [this] at hok
          cases hok
      · exfalso
        have : (folderScan fs root d (c0 :: cs) ds acc).1 = .panicNonUtf8 := by
          simp [folderScan, hd0, hval]
        rw [this] at hok
        cases hok

/-- The folder walk, given enough fuel on a well-formed filesystem, panics
whenever some file strictly below a listed directory has a non-UTF-8
root-relative name. -/
lemma folderLoop_panic {fs : FS} {root : RPath} (hw : wfFS fs = true) :
    ∀ (fuel : Nat) (toVisit : List RPath) (acc : List (List Nat × List Nat)),
      visitCost fs toVisit ≤ fuel →
      (∀ d ∈ toVisit, isDirB fs d = true) →
      (∃ qd ∈ fs.files, ∃ d ∈ toVisit, strictUnder d qd.1 ∧
        ¬ isValidUtf8 (joinName (qd.1.comps.drop root.comps.length)) = true) →
      (folderLoop fs root fuel toVisit acc).1 = .panicNonUtf8 := by
  intro fuel
  induction fuel with
  | zero =>
    intro toVisit acc hc hdirs hex
    obtain ⟨qd, hqd, d, hd, -⟩ := hex
    cases toVisit with
    | nil => cases hd
    | cons d0 rest =>
      exfalso
      have := @dirNodesB_length_pos fs (topB fs) d0
      rw [visitCost_cons] at hc
      omega
  | succ f ih =>
    intro toVisit acc hc hdirs hex
    cases toVisit with
    | nil =>
      obtain ⟨qd, -, d, hd, -⟩ := hex
      cases hd
    | cons d0 rest =>
      have hd0 : isDirB fs d0 = true := hdirs d0 (List.mem_cons_self _ _)
      rw [visitCost_cons] at hc
      have hsplit := @folderScan_no_other fs root d0 hw (readDir fs d0) [] acc (fun c hc2 => hc2)
      rcases hscan : folderScan fs root d0 (readDir fs d0) [] acc with ⟨o, ds2, acc2⟩
      rw [hscan] at hsplit
      simp only at hsplit
      have hstep : folderLoop fs root (f + 1) (d0 :: rest) acc
          = match (o, ds2, acc2) with
            | (.ok, ds, acc2) => folderLoop fs root f (ds.reverse ++ rest) acc2
            | (o, _, acc2) => (o, acc2) := by
        simp only [folderLoop, hd0, if_true, hscan]
      rcases hsplit with ho | ho
      · subst ho
        have hds2 : ds2 = dirChildren fs d0 := by
          have h6 := folderScan_dirs (readDir fs d0) [] acc (by rw [hscan])
          rw [hscan] at h6
          simpa [dirChildren] using h6
        subst hds2
        rw [hstep]
        show (folderLoop fs root f ((dirChildren fs d0).reverse ++ rest) acc2).1
          = BuildOut.panicNonUtf8
        apply ih
        · rw [visitCost_append, visitCost_reverse]
          have hcost := @dirCost_unfold fs d0
          omega
        · intro d hd
          rcases List.mem_append.mp hd with h7 | h7
          · obtain ⟨c, -, hdc, rfl⟩ := dirChildren_mem.mp (List.mem_reverse.mp h7)
            exact hdc
          · exact hdirs d (List.mem_cons_of_mem _ h7)
        · obtain ⟨qd, hqd, d, hd, hu, hv⟩ := hex
          rcases List.mem_cons.mp hd with rfl | hd2
          · have hlt : d.comps.length < qd.1.comps.length := hu.2.1
            have hcg : qd.1.comps[d.comps.length]?
                = some (qd.1.comps.get ⟨d.comps.length, hlt⟩) := by
              rw [List.getElem?_eq_getElem hlt]
              rfl
            have hqall : qd.1 ∈ allPaths fs := by
              unfold allPaths
              exact List.mem_append.mpr (Or.inl (List.mem_map.mpr ⟨qd, hqd, rfl⟩))
            have hcrd : qd.1.comps.get ⟨d.comps.length, hlt⟩ ∈ readDir fs d :=
              mem_readDir_of_under hqall hu hcg
            rcases child_resolve hw hqd hu hcg with ⟨heq, -, hcd⟩ | ⟨hu2, hcd⟩
            · exfalso
              have hpan := folderScan_panic hw (readDir fs d) [] acc
                  (fun c hc2 => hc2)
                  ⟨qd.1.comps.get ⟨d.comps.length, hlt⟩, hcrd, hcd,
                    by rw [heq]; exact hv⟩
              rw [hscan] at hpan
              cases hpan
            · refine ⟨qd, hqd, childP d (qd.1.comps.get ⟨d.comps.length, hlt⟩),
                ?_, hu2, hv⟩
              apply List.mem_append.mpr
              left
              apply List.mem_reverse.mpr
              exact dirChildren_mem.mpr
                ⟨qd.1.comps.get ⟨d.comps.length, hlt⟩, hcrd, hcd, rfl⟩
          · exact ⟨qd, hqd, d, List.mem_append.mpr (Or.inr hd2), hu, hv⟩
      · subst ho
        rw [hstep]

/-!
## Claim C6
-/

/-- The outcome of `create_zip_from_files` past its guards is the work-list
loop's outcome. -/
lemma create_files_outcome {fs : FS} {outP : RPath} {inputs : List RPath}
    {fuel : Nat} {prs : List (RPath × List (List Nat))}
    (hfresh : pathExistsB fs outP = false) (hprs : initPairs inputs = some prs) :
    (create_zip_from_files fs outP inputs fuel).1
      = (buildLoop (setFile fs outP (FileData.zip [])) fuel prs.reverse []).1 := by
  have hcond : ¬ pathExistsB fs outP = true := by rw [hfresh]; simp
  unfold create_zip_from_files
  rw [if_neg hcond, hprs]

/-- The outcome of `create_zip_from_folder` past its guard is the directory
work-list loop's outcome. -/
lemma create_folder_outcome {fs : FS} {outP folderP : RPath} {fuel : Nat}
    (hfresh : pathExistsB fs outP = false) :
    (create_zip_from_folder fs outP folderP fuel).1
      = (folderLoop (setFile fs outP (FileData.zip [])) folderP fuel [folderP] []).1 := by
  have hcond : ¬ pathExistsB fs outP = true := by rw [hfresh]; simp
  unfold create_zip_from_folder
  rw [if_neg hcond]

/-- C6 counterexample: an input file named 0xFF (not valid UTF-8) makes
`create_zip_from_files` panic — `relative_path.to_str().unwrap()` at
zip_writer.rs line 139 — rather than return `NonUtf8PathError` as an error
value. -/
theorem c6_counterexample_panic_not_error :
    (create_zip_from_files fsC6 outC6 [{ abs := false, comps := [[255]] }] 5).1
      = BuildOut.panicNonUtf8 ∧
    isReturnedError
        (create_zip_from_files fsC6 outC6 [{ abs := false, comps := [[255]] }] 5).1
      = false ∧
    isValidUtf8 [255] = false := by
  decide

/-- C6 (amended): when some source file's path relative to its root is not
representable as UTF-8, both builders abort by panicking — the
`to_str().unwrap()` calls at zip_writer.rs lines 65 and 139 — rather than
returning `NonUtf8PathError` (or any error value) to the caller. -/
theorem c6_non_utf8_panics_not_error
    (fs : FS) (outP : RPath) (inputs : List RPath) (fuel : Nat)
    (prs : List (RPath × List (List Nat)))
    (fs2 : FS) (outP2 folderP : RPath) (fuel2 : Nat)
    (hfresh : pathExistsB fs outP = false)
    (hwf : wfFS (setFile fs outP (FileData.zip [])) = true)
    (hsep : ∀ p ∈ inputs, ¬ p = outP ∧ ¬ strictUnder p outP)
    (hprs : initPairs inputs = some prs)
    (hfuel : stackCost (setFile fs outP (FileData.zip [])) prs.reverse ≤ fuel)
    (hinv : ∃ kv ∈ specList fs inputs, ¬ isValidUtf8 kv.1 = true)
    (hfresh2 : pathExistsB fs2 outP2 = false)
    (hwf2 : wfFS (setFile fs2 outP2 (FileData.zip [])) = true)
    (hdir2 : isDirB (setFile fs2 outP2 (FileData.zip [])) folderP = true)
    (hfuel2 : visitCost (setFile fs2 outP2 (FileData.zip [])) [folderP] ≤ fuel2)
    (hinv2 : ∃ qd ∈ (setFile fs2 outP2 (FileData.zip [])).files,
      strictUnder folderP qd.1 ∧
      ¬ isValidUtf8 (joinName (qd.1.comps.drop folderP.comps.length)) = true) :
    (create_zip_from_files fs outP inputs fuel).1 = BuildOut.panicNonUtf8 ∧
    isReturnedError (create_zip_from_files fs outP inputs fuel).1 = false ∧
    isPanicked (create_zip_from_files fs outP inputs fuel).1 = true ∧
    (create_zip_from_folder fs2 outP2 folderP fuel2).1 = BuildOut.panicNonUtf8 ∧
    isReturnedError (create_zip_from_folder fs2 outP2 folderP fuel2).1 = false := by
  have hA : (create_zip_from_files fs outP inputs fuel).1 = BuildOut.panicNonUtf8 := by
    rw [create_files_outcome hfresh hprs]
    apply buildLoop_panic fuel prs.reverse [] hfuel
    obtain ⟨kv, hkv, hv⟩ := hinv
    exact ⟨kv, (stackHarv_spec_mem hfresh hwf hsep hprs kv).mpr hkv, hv⟩
  have hB : (create_zip_from_folder fs2 outP2 folderP fuel2).1 = BuildOut.panicNonUtf8 := by
    rw [create_folder_outcome hfresh2]
    apply folderLoop_panic hwf2 fuel2 [folderP] [] hfuel2
      (by intro d hd
          rcases List.mem_cons.mp hd with rfl | h
          · exact hdir2
          · cases h)
    obtain ⟨qd, hqd, hu, hv⟩ := hinv2
    exact ⟨qd, hqd, folderP, List.mem_cons_self _ _, hu, hv⟩
  refine ⟨hA, by rw [hA]; rfl, by rw [hA]; rfl, hB, by rw [hB]; rfl⟩

/-- C6 witness: a folder `d` containing a file named 0xFF: listing `d` makes
`create_zip_from_files` panic, and building from folder `d` makes
`create_zip_from_folder` panic; neither returns an error value. -/
theorem c6_non_utf8_panics_not_error_witness :
    (create_zip_from_files fsC6w outC6a [{ abs := false, comps := [strB "d"] }] 5).1
      = BuildOut.panicNonUtf8 ∧
    isReturnedError
        (create_zip_from_files fsC6w outC6a [{ abs := false, comps := [strB "d"] }] 5).1
      = false ∧
    (create_zip_from_folder fsC6w outC6b { abs := false, comps := [strB "d"] } 5).1
      = BuildOut.panicNonUtf8 ∧
    isReturnedError
        (create_zip_from_folder fsC6w outC6b { abs := false, comps := [strB "d"] } 5).1
      = false := by
  have h := c6_non_utf8_panics_not_error fsC6w outC6a
      [{ abs := false, comps := [strB "d"] }] 5
      [({ abs := false, comps := [strB "d"] }, [strB "d"])]
      fsC6w outC6b { abs := false, comps := [strB "d"] } 5
      (by decide) (by decide) (by decide) (by decide) (by decide) (by decide)
      (by decide) (by decide) (by decide) (by decide) (by decide)
  exact ⟨h.1, h.2.1, h.2.2.2.1, h.2.2.2.2⟩
